import Mathlib

set_option maxHeartbeats 1000000

/-!
Verification of the two-pass tag-to-text post-processing core of
`nemo/collections/nlp/models/text_normalization/text_normalization_model.py`:
the span-extraction walk inside `TextNormalizationModel.inference`
(lines 483-509), the reconstruction walk `assemble_output` (lines 345-411)
and the cross-batch accumulation in `infer` (lines 425-451).

Tensors are embedded as lists, per-token tag predictions as a four-element
inductive type, tokenizers (`ids_to_text`) as an explicit function parameter
`detok`, and the rewriter output `seq_preds` as an already-decoded list of
strings consumed by index.  Python runtime errors (IndexError on
`seq_preds[decoder_counter]`, IndexError on `context_ids[i][j]`, the NameError
on the leaked loop variable `j` when a tag row is empty) are embedded as
`none` results.
-/

namespace TextNorm

/-- Modelled from the spec: the four per-token tag labels (`tag_labels` of
`text_normalization_dataset.py`, a file that is not under `src/`).  The spec
names them OuterStart `O-I`, OuterContinue `O-M`, RewriteStart `B-I`,
RewriteContinue `B-M`.  Both walks in `text_normalization_model.py` compare a
tag only for equality with `tag_labels['O-I']`, `tag_labels['O-M']`,
`tag_labels['B-I']` and treat everything else in a final catch-all branch, so
a four-constructor inductive type is a faithful embedding. -/
inductive Tag
  | OI
  | OM
  | BI
  | BM
deriving DecidableEq

/-- Span category: `O` = Outer (verbatim), `B` = Rewrite (semiotic). -/
inductive Cat
  | O
  | B
deriving DecidableEq, Repr

/-- Category of a tag (`O-I`/`O-M` are Outer, `B-I`/`B-M` are Rewrite). -/
def tagCat : Tag → Cat
  | Tag.OI => Cat.O
  | Tag.OM => Cat.O
  | Tag.BI => Cat.B
  | Tag.BM => Cat.B

/-- Whether a tag is a span-opening tag (`O-I` or `B-I`). -/
def isStart : Tag → Bool
  | Tag.OI => true
  | Tag.OM => false
  | Tag.BI => true
  | Tag.BM => false

/-- A span of token indices `[start, stop)` with its category. -/
structure Span where
  cat : Cat
  start : Nat
  stop : Nat
deriving DecidableEq, Repr

/-- One row of the span-extraction loop in `TextNormalizationModel.inference`
(lines 483-509).  State: `j` is the loop index, `prevB` embeds
`prev_tag == 'B'` (the extractor's `prev_tag` is only ever `None` or `'B'`),
`start` embeds `start_index`.  Emitted pairs are
`(left_column_index, right_column_index) = (start_index - 1, j)`, appended by
`register_lr` exactly when `prev_tag` is truthy.  `j == 0` is skipped first;
then `j >= len_context[i] - 1` forces closure and breaks; then the tag
dispatch: `B-I` closes any open span and opens a new one, `B-M` continues an
open `B` span or opens one, anything else closes any open span. -/
def inferenceGo (lenC : Nat) : List Tag → Nat → Bool → Nat → List (Nat × Nat)
  | [], _, _, _ => []
  | t :: rest, j, prevB, start =>
    if j = 0 then inferenceGo lenC rest (j + 1) prevB start
    else if lenC - 1 ≤ j then
      if prevB then [(start - 1, j)] else []
    else
      match t with
      | Tag.BI =>
          (if prevB then [(start - 1, j)] else []) ++ inferenceGo lenC rest (j + 1) true j
      | Tag.BM =>
          if prevB then inferenceGo lenC rest (j + 1) true start
          else inferenceGo lenC rest (j + 1) true j
      | _ =>
          (if prevB then [(start - 1, j)] else []) ++ inferenceGo lenC rest (j + 1) false start

/-- The `(left_column_index, right_column_index)` pairs produced for one row
by the extraction loop of `inference`. -/
def inferenceRowRequests (tags : List Tag) (lenC : Nat) : List (Nat × Nat) :=
  inferenceGo lenC tags 0 false 0

/-- The literal rewriter input derived from an anchor pair: `inference` builds
`input_str` from `context_ids[batch_id][left_column_index + 1 : right_column_index]`
(lines 549-554). -/
def subTokens (toks : List Int) (lr : Nat × Nat) : List Int :=
  (toks.drop (lr.1 + 1)).take (lr.2 - (lr.1 + 1))

/-- One example of a batch: example id, token-id row (`context_ids[i]`), tag
row (`tag_preds[i]`) and valid length (`len_context[i]`). -/
structure Row where
  exid : Int
  tokens : List Int
  tags : List Tag
  lenC : Nat
deriving DecidableEq

/-- Batch-level request list: `inference` concatenates per-row requests in
ascending row order (the outer `for i in range(len(tag_preds))`). -/
def inferenceRequests (rows : List Row) : List (Nat × Nat) :=
  (rows.map fun r => inferenceRowRequests r.tags r.lenC).flatten

/-- Total number of rewrite requests in a batch. -/
def inferenceRequestCount (rows : List Row) : Nat :=
  (inferenceRequests rows).length

/-- Whether the external rewriter (the `seq2seq` call of `inference`) runs:
with an empty request list, `input_ids` is empty and `inference` returns
early (`if not input_ids: return None, ...`, lines 558-559) without invoking
the rewriter. -/
def rewriterInvoked (rows : List Row) : Bool :=
  !(inferenceRequests rows).isEmpty

/-- The inner `decode` closure of `assemble_output` (lines 361-367), for one
closing span.  `none` state (`prev_tag is None`) appends nothing; an Outer
span appends the detokenization of `context_ids[i][start_index:j]`; a Rewrite
span appends `seq_preds[decoder_counter]` and increments the counter, and a
counter past the end of the list is Python's IndexError, embedded as `none`. -/
def decode (detok : List Int → String) (rewritten : List String) (toks : List Int) :
    Option (Cat × Nat) → Nat → Nat → Option (List String × Nat)
  | none, _, ctr => some ([], ctr)
  | some (Cat.O, start), j, ctr => some ([detok ((toks.drop start).take (j - start))], ctr)
  | some (Cat.B, _), _, ctr =>
      match rewritten.get? ctr with
      | none => none
      | some s => some ([s], ctr + 1)

/-- The per-row loop of `assemble_output` (lines 374-407).  Walks the tag row
from index `j` with current open state `op` (`prev_tag`, `start_index`) and
decoder counter `ctr`.  A token equal to the start marker is skipped
(`continue`), a token equal to the end marker breaks.  On loop exit the
function returns the fragments appended so far, the open state, the last
value of the (leaked) loop variable `j` and the counter.  A missing token at
index `j` is Python's IndexError, embedded as `none`. -/
def assembleGo (detok : List Int → String) (rewritten : List String)
    (toks : List Int) (bos eos : Int) :
    List Tag → Nat → Option (Cat × Nat) → Nat →
    Option (List String × Option (Cat × Nat) × Nat × Nat)
  | [], j, op, ctr => some ([], op, j - 1, ctr)
  | t :: rest, j, op, ctr =>
    match toks.get? j with
    | none => none
    | some tok =>
      if tok = bos then assembleGo detok rewritten toks bos eos rest (j + 1) op ctr
      else if tok = eos then some ([], op, j, ctr)
      else
        match t, op with
        | Tag.OM, some (Cat.O, s) =>
            assembleGo detok rewritten toks bos eos rest (j + 1) (some (Cat.O, s)) ctr
        | Tag.BM, some (Cat.B, s) =>
            assembleGo detok rewritten toks bos eos rest (j + 1) (some (Cat.B, s)) ctr
        | tg, _ =>
            match decode detok rewritten toks op j ctr with
            | none => none
            | some (fs, c1) =>
              match assembleGo detok rewritten toks bos eos rest (j + 1) (some (tagCat tg, j)) c1 with
              | none => none
              | some (fs2, op2, jl, c2) => some (fs ++ fs2, op2, jl, c2)

/-- One row of `assemble_output`: run the loop from index 0 with
`prev_tag = None`, `start_index = 0`, then the trailing
`decode(prev_tag, i, start_index, j, decoder_counter)` at the leaked loop
index.  An empty tag row leaves `j` unbound in Python (NameError), embedded
as `none`.  Returns the fragments appended for this row and the new shared
counter. -/
def assembleRow (detok : List Int → String) (rewritten : List String)
    (bos eos : Int) (toks : List Int) (tags : List Tag) (ctr : Nat) :
    Option (List String × Nat) :=
  match tags with
  | [] => none
  | _ :: _ =>
    match assembleGo detok rewritten toks bos eos tags 0 none ctr with
    | none => none
    | some (fs, op, jl, c) =>
      match decode detok rewritten toks op jl c with
      | none => none
      | some (fs2, c2) => some (fs ++ fs2, c2)

/-- Close an open state at index `e`: the span it denotes, if any. -/
def closeAt : Option (Cat × Nat) → Nat → List Span
  | none, _ => []
  | some (c, s), e => [⟨c, s, e⟩]

/-- The same loop as `assembleGo`, recording the spans each `decode` call
closes instead of the fragments it appends (the walk itself never reads
`rewritten`, so no error or counter is involved beyond the token lookup). -/
def assembleSpansGo (toks : List Int) (bos eos : Int) :
    List Tag → Nat → Option (Cat × Nat) →
    Option (List Span × Option (Cat × Nat) × Nat)
  | [], j, op => some ([], op, j - 1)
  | t :: rest, j, op =>
    match toks.get? j with
    | none => none
    | some tok =>
      if tok = bos then assembleSpansGo toks bos eos rest (j + 1) op
      else if tok = eos then some ([], op, j)
      else
        match t, op with
        | Tag.OM, some (Cat.O, s) => assembleSpansGo toks bos eos rest (j + 1) (some (Cat.O, s))
        | Tag.BM, some (Cat.B, s) => assembleSpansGo toks bos eos rest (j + 1) (some (Cat.B, s))
        | tg, _ =>
            match assembleSpansGo toks bos eos rest (j + 1) (some (tagCat tg, j)) with
            | none => none
            | some (sps, op2, jl) => some (closeAt op j ++ sps, op2, jl)

/-- The sequence of spans (boundaries and categories) visited by one row of
`assemble_output`, including the span closed by the trailing `decode`. -/
def assembleSpans (toks : List Int) (tags : List Tag) (bos eos : Int) :
    Option (List Span) :=
  match tags with
  | [] => none
  | _ :: _ =>
    match assembleSpansGo toks bos eos tags 0 none with
    | none => none
    | some (sps, op, jl) => some (sps ++ closeAt op jl)

/-- Render a span list the way `decode` does, consuming `rewritten`
sequentially from `ctr`. -/
def renderSpans (detok : List Int → String) (rewritten : List String) (toks : List Int) :
    List Span → Nat → Option (List String × Nat)
  | [], ctr => some ([], ctr)
  | sp :: rest, ctr =>
    match decode detok rewritten toks (some (sp.cat, sp.start)) sp.stop ctr with
    | none => none
    | some (fs, c1) =>
      match renderSpans detok rewritten toks rest c1 with
      | none => none
      | some (fs2, c2) => some (fs ++ fs2, c2)

/-- Reference chunker for the category/continuation rule actually implemented
by both walks: considered indices run from 1 up to (excluding) `stop`; a new
span begins at the first considered index, whenever the category changes, and
also whenever the raw tag is an opening tag (`O-I`/`B-I`); a span still open
when the index reaches `stop` is closed there. -/
def chunkGo (stop : Nat) : List Tag → Nat → Option (Cat × Nat) → List Span
  | [], _, _ => []
  | t :: rest, j, op =>
    if stop ≤ j then closeAt op j
    else
      match op with
      | none => chunkGo stop rest (j + 1) (some (tagCat t, j))
      | some (oc, s) =>
        if oc = tagCat t ∧ isStart t = false then chunkGo stop rest (j + 1) (some (oc, s))
        else ⟨oc, s, j⟩ :: chunkGo stop rest (j + 1) (some (tagCat t, j))

/-- Spans of a tag row under the shared rule, with forced closure at `stop`
(index 0 is the start marker and is never considered). -/
def chunk (tags : List Tag) (stop : Nat) : List Span :=
  match tags with
  | [] => []
  | _ :: rest => chunkGo stop rest 1 none

/-- The anchor pair a Rewrite span is reported as by the extractor. -/
def requestsOfSpans (sps : List Span) : List (Nat × Nat) :=
  (sps.filter fun sp => decide (sp.cat = Cat.B)).map fun sp => (sp.start - 1, sp.stop)

/-- Number of Rewrite spans in a span list. -/
def countB (sps : List Span) : Nat :=
  (sps.filter fun sp => decide (sp.cat = Cat.B)).length

/-- Rewrite-span count of one row under the shared rule. -/
def rowCountB (r : Row) : Nat :=
  countB (chunk r.tags (r.lenC - 1))

/-- Total Rewrite-span count of a batch under the shared rule. -/
def batchCountB (rows : List Row) : Nat :=
  (rows.map rowCountB).sum

/-- `preds[example_id].append(fragment)` on a `defaultdict(list)` embedded as
an insertion-ordered association list: the first append for an id creates its
entry at the end. -/
def alistAppend : List (Int × List String) → Int → String → List (Int × List String)
  | [], i, f => [(i, [f])]
  | (k, v) :: rest, i, f =>
    if k = i then (k, v ++ [f]) :: rest
    else (k, v) :: alistAppend rest i f

/-- Keys of the association list (`preds` dict membership domain). -/
def alistKeys (l : List (Int × List String)) : List Int :=
  l.map Prod.fst

/-- Append a whole fragment list for one id, one fragment at a time, as the
successive `decode` calls of one row do. -/
def appendFrags (preds : List (Int × List String)) (i : Int) (fs : List String) :
    List (Int × List String) :=
  fs.foldl (fun acc f => alistAppend acc i f) preds

/-- Python dict lookup on the association list. -/
def alistLookup (l : List (Int × List String)) (i : Int) : Option (List String) :=
  match l with
  | [] => none
  | (k, v) :: rest => if k = i then some v else alistLookup rest i

/-- The outer loop of `assemble_output` (lines 369-409) from a given `preds`
state and shared `decoder_counter`: a row whose example id is already a key
of `preds` is skipped entirely (`if example_id in preds: continue`);
otherwise the row is walked and its fragments appended under its id. -/
def assembleOutputFrom (detok : List Int → String) (rewritten : List String)
    (bos eos : Int) :
    List Row → List (Int × List String) → Nat →
    Option (List (Int × List String) × Nat)
  | [], preds, ctr => some (preds, ctr)
  | r :: rest, preds, ctr =>
    if r.exid ∈ alistKeys preds then
      assembleOutputFrom detok rewritten bos eos rest preds ctr
    else
      match assembleRow detok rewritten bos eos r.tokens r.tags ctr with
      | none => none
      | some (fs, c1) =>
        assembleOutputFrom detok rewritten bos eos rest (appendFrags preds r.exid fs) c1

/-- `assemble_output` for one batch: fresh `preds = defaultdict(list)` and
`decoder_counter = 0`.  Also returns the final counter for analysis. -/
def assembleOutput (detok : List Int → String) (rewritten : List String)
    (bos eos : Int) (rows : List Row) :
    Option (List (Int × List String) × Nat) :=
  assembleOutputFrom detok rewritten bos eos rows [] 0

/-- Python `dict.update` with insertion-order semantics, as used by
`all_preds.update(preds)` in `infer` (line 451): values of existing keys are
overwritten in place, new keys are appended in order. -/
def dictUpdate (acc preds : List (Int × List String)) : List (Int × List String) :=
  (acc.map fun kv =>
    match alistLookup preds kv.1 with
    | some v => (kv.1, v)
    | none => kv) ++
  preds.filter fun kv => (alistLookup acc kv.1).isNone

/-- The batch loop of `infer` (lines 425-451): each batch is assembled with a
fresh counter and its `preds` merged into the running `all_preds` by
`dict.update`. -/
def inferLoop (detok : List Int → String) (bos eos : Int) :
    List (List Row × List String) → List (Int × List String) →
    Option (List (Int × List String))
  | [], acc => some acc
  | (rows, rewritten) :: rest, acc =>
    match assembleOutput detok rewritten bos eos rows with
    | none => none
    | some (preds, _) => inferLoop detok bos eos rest (dictUpdate acc preds)

/-- Well-formed row, as produced by the upstream dataset: the start marker
exactly at index 0, the end marker exactly at index `lenC - 1`, neither
marker strictly in between, at least one marker pair (`2 ≤ lenC`), the
valid length within the padded row, and token and tag rows of equal width. -/
abbrev WFRow (bos eos : Int) (toks : List Int) (tags : List Tag) (lenC : Nat) : Prop :=
  toks.length = tags.length ∧
  2 ≤ lenC ∧ lenC ≤ toks.length ∧
  toks.get? 0 = some bos ∧
  toks.get? (lenC - 1) = some eos ∧
  eos ≠ bos ∧
  ∀ tok ∈ (toks.take (lenC - 1)).drop 1, tok ≠ bos ∧ tok ≠ eos

/-- Well-formedness of a whole batch row. -/
abbrev RowWF (bos eos : Int) (r : Row) : Prop :=
  WFRow bos eos r.tokens r.tags r.lenC

/-- Minimal model of Python values, for the truthiness of the expression the
`assert` statement at lines 535-538 evaluates. -/
inductive PyVal
  | bool (b : Bool)
  | str (s : String)
  | tuple (elems : List PyVal)

/-- Python truthiness: a bool is itself, a string is truthy iff non-empty, a
tuple is truthy iff non-empty — regardless of its elements. -/
def pyTruthy : PyVal → Bool
  | PyVal.bool b => b
  | PyVal.str s => decide (s.length ≠ 0)
  | PyVal.tuple es => decide (es.length ≠ 0)

/-- `torch.all(left_column_index < right_column_index)` for the produced
anchor lists. -/
def allAnchorsLt (left right : List Nat) : Bool :=
  (left.zip right).all fun p => decide (p.1 < p.2)

/-- The expression the `assert` at lines 535-538 actually evaluates: because
of the trailing comma, it is the 2-tuple
`(torch.all(left < right), "left context start needs to be smaller than right context end")`,
not the comparison. -/
def anchorsAssertValue (left right : List Nat) : PyVal :=
  PyVal.tuple
    [PyVal.bool (allAnchorsLt left right),
     PyVal.str "left context start needs to be smaller than right context end"]

/-- Whether the `assert` aborts: it aborts iff the asserted value is falsy. -/
def anchorsAssertAborts (left right : List Nat) : Bool :=
  !pyTruthy (anchorsAssertValue left right)

/-- The stopping index asserted by claim C2: the first index whose token is
the end marker, or the valid length if no end marker occurs before it. -/
def claimStop (toks : List Int) (eos : Int) (lenC : Nat) : Nat :=
  match toks.findIdx? (fun t => decide (t = eos)) with
  | some k => if k < lenC then k else lenC
  | none => lenC

/-- Claim C2 for one row: every span of either pass ends at or before the
claimed stopping index. -/
def claimC2holds (bos eos : Int) (toks : List Int) (tags : List Tag) (lenC : Nat) : Bool :=
  ((inferenceRowRequests tags lenC).all fun lr =>
    decide (lr.2 ≤ claimStop toks eos lenC)) &&
  (match assembleSpans toks tags bos eos with
   | some sps => sps.all fun sp => decide (sp.stop ≤ claimStop toks eos lenC)
   | none => true)

/-- Claim C6's maximality for an extractor request `(l, r)` covering tokens
`[l + 1, r)`: its left neighbour `l` is the start marker position or of a
different category, and its right neighbour `r` is at or past the closure
index or of a different category. -/
def requestMaximal (tags : List Tag) (stop : Nat) (lr : Nat × Nat) : Bool :=
  (decide (lr.1 = 0) ||
    (match tags.get? lr.1 with
     | some t => decide (tagCat t ≠ Cat.B)
     | none => true)) &&
  (decide (stop ≤ lr.2) ||
    (match tags.get? lr.2 with
     | some t => decide (tagCat t ≠ Cat.B)
     | none => true))

/-- The fragments an all-verbatim row reconstruction yields: one detokenized
fragment per span of the shared rule (all Outer). -/
def verbatimRow (detok : List Int → String) (toks : List Int) (tags : List Tag)
    (lenC : Nat) : List String :=
  (chunk tags (lenC - 1)).map fun sp => detok ((toks.drop sp.start).take (sp.stop - sp.start))

/-- The all-verbatim batch reconstruction: same dedup rule as
`assemble_output`, fragments of each processed row appended under its id (a
row yielding no fragments creates no entry — `defaultdict` semantics). -/
def verbatimBatch (detok : List Int → String) :
    List Row → List (Int × List String) → List (Int × List String)
  | [], preds => preds
  | r :: rest, preds =>
    if r.exid ∈ alistKeys preds then verbatimBatch detok rest preds
    else
      match verbatimRow detok r.tokens r.tags r.lenC with
      | [] => verbatimBatch detok rest preds
      | f :: fs => verbatimBatch detok rest (preds ++ [(r.exid, f :: fs)])

/-- Sample detokenizer for concrete evaluations: concatenates the decimal
representation of each token id. -/
def detokNum (l : List Int) : String :=
  String.join (l.map fun n => n.repr)

/-- Sample detokenizer realizing the boundary example of claim C8. -/
def detokWords (l : List Int) : String :=
  if l = [10] then "the" else if l = [20] then "dogs" else ""

/-- Sample well-formed row with no Rewrite span. -/
def rowOuter : Row := ⟨3, [0, 10, 1], [Tag.OI, Tag.OI, Tag.OI], 3⟩

/-- Sample well-formed row with one Rewrite span. -/
def rowRewrite : Row := ⟨5, [0, 6, 1], [Tag.OI, Tag.BI, Tag.OI], 3⟩

/-- Sample well-formed row with one Rewrite span, id 7. -/
def rowDup : Row := ⟨7, [0, 6, 1], [Tag.OI, Tag.BI, Tag.OI], 3⟩

theorem requestsOfSpans_nil : requestsOfSpans [] = [] := rfl

theorem requestsOfSpans_cons_B (s e : Nat) (l : List Span) :
    requestsOfSpans (⟨Cat.B, s, e⟩ :: l) = (s - 1, e) :: requestsOfSpans l := by
  simp [requestsOfSpans]

theorem requestsOfSpans_cons_O (s e : Nat) (l : List Span) :
    requestsOfSpans (⟨Cat.O, s, e⟩ :: l) = requestsOfSpans l := by
  simp [requestsOfSpans]

theorem requestsOfSpans_append (l₁ l₂ : List Span) :
    requestsOfSpans (l₁ ++ l₂) = requestsOfSpans l₁ ++ requestsOfSpans l₂ := by
  simp [requestsOfSpans, List.filter_append]

theorem chunkGo_stop {stop j : Nat} (h : stop ≤ j) (t : Tag) (rest : List Tag)
    (op : Option (Cat × Nat)) : chunkGo stop (t :: rest) j op = closeAt op j := by
  simp [chunkGo, h]

theorem chunkGo_none {stop j : Nat} (h : ¬ stop ≤ j) (t : Tag) (rest : List Tag) :
    chunkGo stop (t :: rest) j none = chunkGo stop rest (j + 1) (some (tagCat t, j)) := by
  simp [chunkGo, h]

theorem chunkGo_cont {stop j : Nat} (h : ¬ stop ≤ j) (t : Tag) (oc : Cat)
    (hc : oc = tagCat t) (hs : isStart t = false) (rest : List Tag) (s : Nat) :
    chunkGo stop (t :: rest) j (some (oc, s)) = chunkGo stop rest (j + 1) (some (oc, s)) := by
  simp [chunkGo, h, hc, hs]

theorem chunkGo_switch {stop j : Nat} (h : ¬ stop ≤ j) (t : Tag) (oc : Cat)
    (hc : ¬ (oc = tagCat t ∧ isStart t = false)) (rest : List Tag) (s : Nat) :
    chunkGo stop (t :: rest) j (some (oc, s)) =
      ⟨oc, s, j⟩ :: chunkGo stop rest (j + 1) (some (tagCat t, j)) := by
  simp only [chunkGo, if_neg h]
  rw [if_neg hc]

theorem inferenceGo_stop {lenC j : Nat} (hj : ¬ j = 0) (h : lenC - 1 ≤ j)
    (t : Tag) (rest : List Tag) (prevB : Bool) (s : Nat) :
    inferenceGo lenC (t :: rest) j prevB s = if prevB then [(s - 1, j)] else [] := by
  simp [inferenceGo, hj, h]

theorem inferenceGo_BI {lenC j : Nat} (hj : ¬ j = 0) (h : ¬ lenC - 1 ≤ j)
    (rest : List Tag) (prevB : Bool) (s : Nat) :
    inferenceGo lenC (Tag.BI :: rest) j prevB s =
      (if prevB then [(s - 1, j)] else []) ++ inferenceGo lenC rest (j + 1) true j := by
  simp [inferenceGo, hj, h]

theorem inferenceGo_BM_true {lenC j : Nat} (hj : ¬ j = 0) (h : ¬ lenC - 1 ≤ j)
    (rest : List Tag) (s : Nat) :
    inferenceGo lenC (Tag.BM :: rest) j true s = inferenceGo lenC rest (j + 1) true s := by
  simp [inferenceGo, hj, h]

theorem inferenceGo_BM_false {lenC j : Nat} (hj : ¬ j = 0) (h : ¬ lenC - 1 ≤ j)
    (rest : List Tag) (s : Nat) :
    inferenceGo lenC (Tag.BM :: rest) j false s = inferenceGo lenC rest (j + 1) true j := by
  simp [inferenceGo, hj, h]

theorem inferenceGo_OI {lenC j : Nat} (hj : ¬ j = 0) (h : ¬ lenC - 1 ≤ j)
    (rest : List Tag) (prevB : Bool) (s : Nat) :
    inferenceGo lenC (Tag.OI :: rest) j prevB s =
      (if prevB then [(s - 1, j)] else []) ++ inferenceGo lenC rest (j + 1) false s := by
  simp [inferenceGo, hj, h]

theorem inferenceGo_OM {lenC j : Nat} (hj : ¬ j = 0) (h : ¬ lenC - 1 ≤ j)
    (rest : List Tag) (prevB : Bool) (s : Nat) :
    inferenceGo lenC (Tag.OM :: rest) j prevB s =
      (if prevB then [(s - 1, j)] else []) ++ inferenceGo lenC rest (j + 1) false s := by
  simp [inferenceGo, hj, h]

/-- The extraction loop of `inference` agrees with the reference chunker on
Rewrite spans, from any aligned pair of states.  The extractor's `prevB`
state corresponds to an open Rewrite span with the same start; a closed
extractor state corresponds to no open span or to an open Outer span with
arbitrary start. -/
theorem inferenceGo_eq_chunkGo (lenC : Nat) :
    ∀ (ts : List Tag) (j : Nat), 1 ≤ j →
      (∀ s, inferenceGo lenC ts j true s =
        requestsOfSpans (chunkGo (lenC - 1) ts j (some (Cat.B, s)))) ∧
      (∀ s s', inferenceGo lenC ts j false s =
        requestsOfSpans (chunkGo (lenC - 1) ts j (some (Cat.O, s')))) ∧
      (∀ s, inferenceGo lenC ts j false s =
        requestsOfSpans (chunkGo (lenC - 1) ts j none)) := by
  intro ts
  induction ts with
  | nil =>
    intro j hj
    exact ⟨fun s => rfl, fun s s' => rfl, fun s => rfl⟩
  | cons t rest ih =>
    intro j hj
    have hj0 : ¬ j = 0 := by omega
    have ih1 := ih (j + 1) (by omega)
    by_cases hstop : lenC - 1 ≤ j
    · refine ⟨fun s => ?_, fun s s' => ?_, fun s => ?_⟩ <;>
        simp [inferenceGo_stop hj0 hstop, chunkGo_stop hstop, closeAt,
          requestsOfSpans_cons_B, requestsOfSpans_cons_O, requestsOfSpans_nil]
    · refine ⟨fun s => ?_, fun s s' => ?_, fun s => ?_⟩
      · cases t with
        | OI =>
          rw [inferenceGo_OI hj0 hstop, chunkGo_switch hstop Tag.OI Cat.B (by simp [tagCat, isStart]),
            requestsOfSpans_cons_B, if_pos rfl]
          exact congrArg _ (ih1.2.1 _ _)
        | OM =>
          rw [inferenceGo_OM hj0 hstop, chunkGo_switch hstop Tag.OM Cat.B (by simp [tagCat]),
            requestsOfSpans_cons_B, if_pos rfl]
          exact congrArg _ (ih1.2.1 _ _)
        | BI =>
          rw [inferenceGo_BI hj0 hstop, chunkGo_switch hstop Tag.BI Cat.B (by simp [isStart]),
            requestsOfSpans_cons_B, if_pos rfl]
          exact congrArg _ (ih1.1 _)
        | BM =>
          rw [inferenceGo_BM_true hj0 hstop, chunkGo_cont hstop Tag.BM Cat.B rfl rfl]
          exact ih1.1 _
      · cases t with
        | OI =>
          rw [inferenceGo_OI hj0 hstop, chunkGo_switch hstop Tag.OI Cat.O (by simp [isStart]),
            requestsOfSpans_cons_O, if_neg (by simp), List.nil_append]
          exact ih1.2.1 _ _
        | OM =>
          rw [inferenceGo_OM hj0 hstop, chunkGo_cont hstop Tag.OM Cat.O rfl rfl,
            if_neg (by simp), List.nil_append]
          exact ih1.2.1 _ _
        | BI =>
          rw [inferenceGo_BI hj0 hstop, chunkGo_switch hstop Tag.BI Cat.O (by simp [tagCat]),
            requestsOfSpans_cons_O, if_neg (by simp), List.nil_append]
          exact ih1.1 _
        | BM =>
          rw [inferenceGo_BM_false hj0 hstop, chunkGo_switch hstop Tag.BM Cat.O (by simp [tagCat]),
            requestsOfSpans_cons_O]
          exact ih1.1 _
      · cases t with
        | OI =>
          rw [inferenceGo_OI hj0 hstop, chunkGo_none hstop,
            if_neg (by simp), List.nil_append]
          exact ih1.2.1 _ _
        | OM =>
          rw [inferenceGo_OM hj0 hstop, chunkGo_none hstop,
            if_neg (by simp), List.nil_append]
          exact ih1.2.1 _ _
        | BI =>
          rw [inferenceGo_BI hj0 hstop, chunkGo_none hstop,
            if_neg (by simp), List.nil_append]
          exact ih1.1 _
        | BM =>
          rw [inferenceGo_BM_false hj0 hstop, chunkGo_none hstop]
          exact ih1.1 _

/-- Per-row extractor output equals the Rewrite spans of the shared rule,
for every tag row and valid length. -/
theorem inferenceRowRequests_eq_chunk (tags : List Tag) (lenC : Nat) :
    inferenceRowRequests tags lenC = requestsOfSpans (chunk tags (lenC - 1)) := by
  cases tags with
  | nil => rfl
  | cons t rest =>
    show inferenceGo lenC (t :: rest) 0 false 0 = _
    have h0 : inferenceGo lenC (t :: rest) 0 false 0 = inferenceGo lenC rest 1 false 0 := by
      simp [inferenceGo]
    rw [h0]
    exact (inferenceGo_eq_chunkGo lenC rest 1 (by omega)).2.2 0

theorem closeAt_none (j : Nat) : closeAt none j = [] := rfl

theorem closeAt_some (c : Cat) (s j : Nat) : closeAt (some (c, s)) j = [⟨c, s, j⟩] := rfl

/-- The span walk of `assemble_output` agrees with the reference chunker from
any reachable state, on a row whose considered region `[j, stop)` holds no
marker and whose token at `stop` is the end marker. -/
theorem assembleSpansGo_eq_chunkGo (toks : List Int) (bos eos : Int) (stop : Nat)
    (heos : toks.get? stop = some eos) (hne : eos ≠ bos)
    (hmid : ∀ k, 1 ≤ k → k < stop → ∃ tok, toks.get? k = some tok ∧ tok ≠ bos ∧ tok ≠ eos) :
    ∀ (ts : List Tag) (j : Nat), 1 ≤ j → j ≤ stop → stop < j + ts.length →
      ∀ op, ∃ sps op' jl, assembleSpansGo toks bos eos ts j op = some (sps, op', jl) ∧
        sps ++ closeAt op' jl = chunkGo stop ts j op := by
  intro ts
  induction ts with
  | nil =>
    intro j hj hjs hlen op
    exact absurd hlen (by simp; omega)
  | cons t rest ih =>
    intro j hj hjs hlen op
    rcases Nat.eq_or_lt_of_le hjs with heq | hlt
    · refine ⟨[], op, j, ?_, ?_⟩
      · have htok : toks.get? j = some eos := heq ▸ heos
        simp only [assembleSpansGo, htok]
        simp [hne]
      · rw [List.nil_append, chunkGo_stop (le_of_eq heq.symm)]
    · obtain ⟨tok, htok, hnb, hnee⟩ := hmid j hj hlt
      have hstep : ¬ stop ≤ j := by omega
      have hj1 : 1 ≤ j + 1 := by omega
      have hjs1 : j + 1 ≤ stop := hlt
      have hlen1 : stop < (j + 1) + rest.length := by
        simp at hlen ⊢; omega
      cases t with
      | OI =>
        rcases op with _ | ⟨oc, s⟩
        · obtain ⟨sps, op', jl, h1, h2⟩ := ih (j + 1) hj1 hjs1 hlen1 (some (tagCat Tag.OI, j))
          refine ⟨closeAt none j ++ sps, op', jl, ?_, ?_⟩
          · simp only [assembleSpansGo, htok, if_neg hnb, if_neg hnee, h1]
          · rw [closeAt_none, List.nil_append, h2, chunkGo_none hstep]
        · obtain ⟨sps, op', jl, h1, h2⟩ := ih (j + 1) hj1 hjs1 hlen1 (some (tagCat Tag.OI, j))
          refine ⟨closeAt (some (oc, s)) j ++ sps, op', jl, ?_, ?_⟩
          · simp only [assembleSpansGo, htok, if_neg hnb, if_neg hnee, h1]
          · rw [closeAt_some, chunkGo_switch hstep Tag.OI oc (by simp [isStart]),
              List.singleton_append, List.cons_append, h2]
      | OM =>
        rcases op with _ | ⟨oc, s⟩
        · obtain ⟨sps, op', jl, h1, h2⟩ := ih (j + 1) hj1 hjs1 hlen1 (some (tagCat Tag.OM, j))
          refine ⟨closeAt none j ++ sps, op', jl, ?_, ?_⟩
          · simp only [assembleSpansGo, htok, if_neg hnb, if_neg hnee, h1]
          · rw [closeAt_none, List.nil_append, h2, chunkGo_none hstep]
        · cases oc with
          | O =>
            obtain ⟨sps, op', jl, h1, h2⟩ := ih (j + 1) hj1 hjs1 hlen1 (some (Cat.O, s))
            refine ⟨sps, op', jl, ?_, ?_⟩
            · simp only [assembleSpansGo, htok, if_neg hnb, if_neg hnee, h1]
            · rw [h2, chunkGo_cont hstep Tag.OM Cat.O rfl rfl]
          | B =>
            obtain ⟨sps, op', jl, h1, h2⟩ := ih (j + 1) hj1 hjs1 hlen1 (some (tagCat Tag.OM, j))
            refine ⟨closeAt (some (Cat.B, s)) j ++ sps, op', jl, ?_, ?_⟩
            · simp only [assembleSpansGo, htok, if_neg hnb, if_neg hnee, h1]
            · rw [closeAt_some, chunkGo_switch hstep Tag.OM Cat.B (by simp [tagCat]),
                List.singleton_append, List.cons_append, h2]
      | BI =>
        rcases op with _ | ⟨oc, s⟩
        · obtain ⟨sps, op', jl, h1, h2⟩ := ih (j + 1) hj1 hjs1 hlen1 (some (tagCat Tag.BI, j))
          refine ⟨closeAt none j ++ sps, op', jl, ?_, ?_⟩
          · simp only [assembleSpansGo, htok, if_neg hnb, if_neg hnee, h1]
          · rw [closeAt_none, List.nil_append, h2, chunkGo_none hstep]
        · obtain ⟨sps, op', jl, h1, h2⟩ := ih (j + 1) hj1 hjs1 hlen1 (some (tagCat Tag.BI, j))
          refine ⟨closeAt (some (oc, s)) j ++ sps, op', jl, ?_, ?_⟩
          · simp only [assembleSpansGo, htok, if_neg hnb, if_neg hnee, h1]
          · rw [closeAt_some, chunkGo_switch hstep Tag.BI oc (by simp [isStart]),
              List.singleton_append, List.cons_append, h2]
      | BM =>
        rcases op with _ | ⟨oc, s⟩
        · obtain ⟨sps, op', jl, h1, h2⟩ := ih (j + 1) hj1 hjs1 hlen1 (some (tagCat Tag.BM, j))
          refine ⟨closeAt none j ++ sps, op', jl, ?_, ?_⟩
          · simp only [assembleSpansGo, htok, if_neg hnb, if_neg hnee, h1]
          · rw [closeAt_none, List.nil_append, h2, chunkGo_none hstep]
        · cases oc with
          | O =>
            obtain ⟨sps, op', jl, h1, h2⟩ := ih (j + 1) hj1 hjs1 hlen1 (some (tagCat Tag.BM, j))
            refine ⟨closeAt (some (Cat.O, s)) j ++ sps, op', jl, ?_, ?_⟩
            · simp only [assembleSpansGo, htok, if_neg hnb, if_neg hnee, h1]
            · rw [closeAt_some, chunkGo_switch hstep Tag.BM Cat.O (by simp [tagCat]),
                List.singleton_append, List.cons_append, h2]
          | B =>
            obtain ⟨sps, op', jl, h1, h2⟩ := ih (j + 1) hj1 hjs1 hlen1 (some (Cat.B, s))
            refine ⟨sps, op', jl, ?_, ?_⟩
            · simp only [assembleSpansGo, htok, if_neg hnb, if_neg hnee, h1]
            · rw [h2, chunkGo_cont hstep Tag.BM Cat.B rfl rfl]

/-- The considered middle region of a well-formed row holds no marker. -/
theorem WFRow_mid (bos eos : Int) (toks : List Int) (tags : List Tag) (lenC : Nat)
    (h : WFRow bos eos toks tags lenC) :
    ∀ k, 1 ≤ k → k < lenC - 1 → ∃ tok, toks.get? k = some tok ∧ tok ≠ bos ∧ tok ≠ eos := by
  obtain ⟨hlen, h2, h3, h0, heos, hne, hmid⟩ := h
  intro k hk1 hk2
  have hklen : k < toks.length := by omega
  cases hg : toks.get? k with
  | none => exact absurd (List.get?_eq_none.1 hg) (by omega)
  | some tok =>
    refine ⟨tok, rfl, ?_⟩
    have hmem : tok ∈ (toks.take (lenC - 1)).drop 1 := by
      apply List.get?_mem (n := k - 1)
      rw [List.get?_drop, List.get?_take (by omega)]
      rw [show 1 + (k - 1) = k from by omega]
      exact hg
    exact hmid tok hmem

/-- For a well-formed row, the span walk of `assemble_output` yields exactly
the spans of the shared rule with forced closure at `lenC - 1`. -/
theorem assembleSpans_eq_chunk (bos eos : Int) (toks : List Int) (tags : List Tag)
    (lenC : Nat) (h : WFRow bos eos toks tags lenC) :
    assembleSpans toks tags bos eos = some (chunk tags (lenC - 1)) := by
  have hmid := WFRow_mid bos eos toks tags lenC h
  obtain ⟨hlen, h2, h3, h0, heos, hne, _⟩ := h
  cases tags with
  | nil =>
    exfalso
    have hz : toks.length = 0 := by simpa using hlen
    omega
  | cons t rest =>
    have hstep0 : assembleSpansGo toks bos eos (t :: rest) 0 none =
        assembleSpansGo toks bos eos rest 1 none := by
      simp only [assembleSpansGo, h0]
      rw [if_pos trivial]
    have hrest : lenC - 1 < 1 + rest.length := by
      have : (t :: rest).length = rest.length + 1 := rfl
      omega
    obtain ⟨sps, op', jl, h1, hch⟩ :=
      assembleSpansGo_eq_chunkGo toks bos eos (lenC - 1) heos hne hmid rest 1
        (by omega) (by omega) hrest none
    show assembleSpans toks (t :: rest) bos eos = _
    simp only [assembleSpans, hstep0, h1, hch]
    rfl

/-- Every span produced by the shared rule from a reachable state is
non-empty, starts at a considered index and is closed at or before the
forced-closure index. -/
theorem chunkGo_bounds (stop : Nat) :
    ∀ (ts : List Tag) (j : Nat) (op : Option (Cat × Nat)),
      1 ≤ j → (∀ c s, op = some (c, s) → 1 ≤ s ∧ s < j ∧ j ≤ stop) →
      ∀ sp ∈ chunkGo stop ts j op, 1 ≤ sp.start ∧ sp.start < sp.stop ∧ sp.stop ≤ stop := by
  intro ts
  induction ts with
  | nil =>
    intro j op hj hop sp hsp
    simp [chunkGo] at hsp
  | cons t rest ih =>
    intro j op hj hop sp hsp
    by_cases hstop : stop ≤ j
    · rw [chunkGo_stop hstop] at hsp
      cases op with
      | none => simp [closeAt] at hsp
      | some cs =>
        obtain ⟨c, s⟩ := cs
        rw [closeAt_some] at hsp
        simp at hsp
        obtain ⟨h1, h2, h3⟩ := hop c s rfl
        subst hsp
        exact ⟨h1, h2, show j ≤ stop from by omega⟩
    · cases op with
      | none =>
        rw [chunkGo_none hstop] at hsp
        exact ih (j + 1) (some (tagCat t, j)) (by omega)
          (by rintro c s hcs; injection hcs with h; injection h with h1 h2; subst h2; omega) sp hsp
      | some cs =>
        obtain ⟨oc, s⟩ := cs
        by_cases hcont : oc = tagCat t ∧ isStart t = false
        · rw [chunkGo_cont hstop t oc hcont.1 hcont.2] at hsp
          obtain ⟨h1, h2, h3⟩ := hop oc s rfl
          exact ih (j + 1) (some (oc, s)) (by omega)
            (by rintro c s' hcs; injection hcs with h; injection h with hh1 hh2; subst hh2; omega)
            sp hsp
        · rw [chunkGo_switch hstop t oc hcont] at hsp
          rcases List.mem_cons.1 hsp with hsp | hsp
          · obtain ⟨h1, h2, h3⟩ := hop oc s rfl
            subst hsp
            exact ⟨h1, h2, show j ≤ stop from by omega⟩
          · exact ih (j + 1) (some (tagCat t, j)) (by omega)
              (by rintro c s' hcs; injection hcs with h; injection h with hh1 hh2; subst hh2; omega)
              sp hsp

/-- Span bounds for a whole row under the shared rule. -/
theorem chunk_bounds (tags : List Tag) (stop : Nat) :
    ∀ sp ∈ chunk tags stop, 1 ≤ sp.start ∧ sp.start < sp.stop ∧ sp.stop ≤ stop := by
  cases tags with
  | nil => intro sp hsp; simp [chunk] at hsp
  | cons t rest =>
    intro sp hsp
    exact chunkGo_bounds stop rest 1 none (by omega) (by rintro c s ⟨⟩) sp hsp

theorem countB_nil : countB [] = 0 := rfl

theorem countB_cons_O (s e : Nat) (l : List Span) :
    countB (⟨Cat.O, s, e⟩ :: l) = countB l := by
  simp [countB]

theorem countB_cons_B (s e : Nat) (l : List Span) :
    countB (⟨Cat.B, s, e⟩ :: l) = countB l + 1 := by
  simp [countB, List.filter_cons]

theorem countB_append (l₁ l₂ : List Span) :
    countB (l₁ ++ l₂) = countB l₁ + countB l₂ := by
  simp [countB, List.filter_append]

theorem countB_eq_requests_length (sps : List Span) :
    countB sps = (requestsOfSpans sps).length := by
  simp [countB, requestsOfSpans]

/-- Rendering a concatenation of span lists renders them in sequence. -/
theorem renderSpans_append (detok : List Int → String) (rewritten : List String)
    (toks : List Int) (l₁ l₂ : List Span) (ctr : Nat) :
    renderSpans detok rewritten toks (l₁ ++ l₂) ctr =
      match renderSpans detok rewritten toks l₁ ctr with
      | none => none
      | some (fs, c) =>
        match renderSpans detok rewritten toks l₂ c with
        | none => none
        | some (fs2, c2) => some (fs ++ fs2, c2) := by
  induction l₁ generalizing ctr with
  | nil =>
    simp only [List.nil_append, renderSpans]
    cases renderSpans detok rewritten toks l₂ ctr with
    | none => rfl
    | some p => cases p; simp
  | cons sp rest ih =>
    have heq : (sp :: rest) ++ l₂ = sp :: (rest ++ l₂) := rfl
    rw [heq]
    simp only [renderSpans]
    cases decode detok rewritten toks (some (sp.cat, sp.start)) sp.stop ctr with
    | none => rfl
    | some p =>
      obtain ⟨fs, c1⟩ := p
      dsimp only
      rw [ih c1]
      cases renderSpans detok rewritten toks rest c1 with
      | none => rfl
      | some q =>
        obtain ⟨fs2, c2⟩ := q
        dsimp only
        cases renderSpans detok rewritten toks l₂ c2 with
        | none => rfl
        | some r => cases r; simp

/-- A successful render consumes exactly one rewritten string per Rewrite
span and yields exactly one fragment per span. -/
theorem renderSpans_count (detok : List Int → String) (rewritten : List String)
    (toks : List Int) :
    ∀ (sps : List Span) (ctr : Nat) (fs : List String) (c : Nat),
      renderSpans detok rewritten toks sps ctr = some (fs, c) →
      c = ctr + countB sps ∧ fs.length = sps.length := by
  intro sps
  induction sps with
  | nil =>
    intro ctr fs c h
    simp only [renderSpans] at h
    injection h with h
    injection h with h1 h2
    subst h1; subst h2
    simp [countB_nil]
  | cons sp rest ih =>
    intro ctr fs c h
    obtain ⟨cc, s, e⟩ := sp
    cases cc with
    | O =>
      simp only [renderSpans, decode] at h
      cases hr : renderSpans detok rewritten toks rest ctr with
      | none => rw [hr] at h; exact absurd h (by simp)
      | some q =>
        obtain ⟨fs2, c2⟩ := q
        rw [hr] at h
        injection h with h
        injection h with h1 h2
        obtain ⟨hc, hl⟩ := ih ctr fs2 c2 hr
        subst h1; subst h2
        constructor
        · rw [countB_cons_O]; omega
        · simp [hl]
    | B =>
      simp only [renderSpans, decode] at h
      cases hg : rewritten.get? ctr with
      | none => rw [hg] at h; exact absurd h (by simp)
      | some str =>
        simp only [hg] at h
        cases hr : renderSpans detok rewritten toks rest (ctr + 1) with
        | none => rw [hr] at h; exact absurd h (by simp)
        | some q =>
          obtain ⟨fs2, c2⟩ := q
          simp only [hr] at h
          injection h with h
          injection h with h1 h2
          obtain ⟨hc, hl⟩ := ih (ctr + 1) fs2 c2 hr
          subst h1; subst h2
          constructor
          · rw [countB_cons_B]; omega
          · simp [hl]

/-- A span list with no Rewrite span renders successfully with any rewritten
list, without touching the counter: one detokenized fragment per span. -/
theorem renderSpans_noB (detok : List Int → String) (rewritten : List String)
    (toks : List Int) :
    ∀ (sps : List Span) (ctr : Nat), countB sps = 0 →
      renderSpans detok rewritten toks sps ctr =
        some (sps.map fun sp => detok ((toks.drop sp.start).take (sp.stop - sp.start)), ctr) := by
  intro sps
  induction sps with
  | nil => intro ctr h; rfl
  | cons sp rest ih =>
    intro ctr h
    obtain ⟨cc, s, e⟩ := sp
    cases cc with
    | O =>
      rw [countB_cons_O] at h
      simp [renderSpans, decode, ih ctr h]
    | B => rw [countB_cons_B] at h; omega

/-- Rendering the closure of an open state is exactly one `decode` call. -/
theorem renderSpans_closeAt (detok : List Int → String) (rewritten : List String)
    (toks : List Int) (op : Option (Cat × Nat)) (jl ctr : Nat) :
    renderSpans detok rewritten toks (closeAt op jl) ctr =
      decode detok rewritten toks op jl ctr := by
  cases op with
  | none => rfl
  | some cs =>
    obtain ⟨c, s⟩ := cs
    simp only [closeAt_some, renderSpans]
    cases hd : decode detok rewritten toks (some (c, s)) jl ctr with
    | none => rfl
    | some p => cases p; simp [renderSpans]

/-- Rendering a closure followed by more spans is one `decode` call and then
rendering the rest. -/
theorem renderSpans_close_append (detok : List Int → String) (rewritten : List String)
    (toks : List Int) (op : Option (Cat × Nat)) (j : Nat) (l : List Span) (ctr : Nat) :
    renderSpans detok rewritten toks (closeAt op j ++ l) ctr =
      match decode detok rewritten toks op j ctr with
      | none => none
      | some (fs, c1) =>
        match renderSpans detok rewritten toks l c1 with
        | none => none
        | some (fs2, c2) => some (fs ++ fs2, c2) := by
  rw [renderSpans_append, renderSpans_closeAt]

/-- The fragment-producing loop of `assemble_output` is the span walk
followed by sequential rendering of the closed spans. -/
theorem assembleGo_eq_spans (detok : List Int → String) (rewritten : List String)
    (toks : List Int) (bos eos : Int) :
    ∀ (ts : List Tag) (j : Nat) (op : Option (Cat × Nat)) (ctr : Nat),
      assembleGo detok rewritten toks bos eos ts j op ctr =
        match assembleSpansGo toks bos eos ts j op with
        | none => none
        | some (sps, op2, jl) =>
          match renderSpans detok rewritten toks sps ctr with
          | none => none
          | some (fs, c) => some (fs, op2, jl, c) := by
  intro ts
  induction ts with
  | nil => intro j op ctr; rfl
  | cons t rest ih =>
    intro j op ctr
    simp only [assembleGo, assembleSpansGo]
    cases toks.get? j with
    | none => rfl
    | some tok =>
      by_cases hb : tok = bos
      · simp only [if_pos hb]
        exact ih (j + 1) op ctr
      · by_cases he : tok = eos
        · simp only [if_neg hb, if_pos he]
          rfl
        · simp only [if_neg hb, if_neg he]
          have hswitch : ∀ (tg : Tag),
              (match decode detok rewritten toks op j ctr with
               | none => none
               | some (fs, c1) =>
                 match assembleGo detok rewritten toks bos eos rest (j + 1) (some (tagCat tg, j)) c1 with
                 | none => none
                 | some (fs2, op2, jl, c2) => some (fs ++ fs2, op2, jl, c2)) =
              match (match assembleSpansGo toks bos eos rest (j + 1) (some (tagCat tg, j)) with
                     | none => none
                     | some (sps, op2, jl) => some (closeAt op j ++ sps, op2, jl)) with
              | none => none
              | some (sps, op2, jl) =>
                match renderSpans detok rewritten toks sps ctr with
                | none => none
                | some (fs, c) => some (fs, op2, jl, c) := by
            intro tg
            cases hd : decode detok rewritten toks op j ctr with
            | none =>
              dsimp only
              cases hs : assembleSpansGo toks bos eos rest (j + 1) (some (tagCat tg, j)) with
              | none => rfl
              | some trip =>
                obtain ⟨sps, op2, jl⟩ := trip
                dsimp only
                rw [renderSpans_close_append, hd]
            | some p =>
              obtain ⟨fs, c1⟩ := p
              dsimp only
              rw [ih (j + 1) (some (tagCat tg, j)) c1]
              cases hs : assembleSpansGo toks bos eos rest (j + 1) (some (tagCat tg, j)) with
              | none => rfl
              | some trip =>
                obtain ⟨sps, op2, jl⟩ := trip
                dsimp only
                rw [renderSpans_close_append, hd]
                dsimp only
                cases hr : renderSpans detok rewritten toks sps c1 with
                | none => rfl
                | some q => cases q; rfl
          cases t with
          | OI => exact hswitch Tag.OI
          | OM =>
            cases op with
            | none => exact hswitch Tag.OM
            | some cs =>
              obtain ⟨oc, s⟩ := cs
              cases oc with
              | O => exact ih (j + 1) (some (Cat.O, s)) ctr
              | B => exact hswitch Tag.OM
          | BI => exact hswitch Tag.BI
          | BM =>
            cases op with
            | none => exact hswitch Tag.BM
            | some cs =>
              obtain ⟨oc, s⟩ := cs
              cases oc with
              | O => exact hswitch Tag.BM
              | B => exact ih (j + 1) (some (Cat.B, s)) ctr

/-- One row of `assemble_output` renders exactly the spans of its walk. -/
theorem assembleRow_eq_spans (detok : List Int → String) (rewritten : List String)
    (bos eos : Int) (toks : List Int) (tags : List Tag) (ctr : Nat) :
    assembleRow detok rewritten bos eos toks tags ctr =
      match assembleSpans toks tags bos eos with
      | none => none
      | some sps => renderSpans detok rewritten toks sps ctr := by
  cases tags with
  | nil => rfl
  | cons t rest =>
    simp only [assembleRow, assembleGo_eq_spans, assembleSpans]
    cases hs : assembleSpansGo toks bos eos (t :: rest) 0 none with
    | none => rfl
    | some trip =>
      obtain ⟨sps, op, jl⟩ := trip
      dsimp only
      rw [renderSpans_append]
      cases hr : renderSpans detok rewritten toks sps ctr with
      | none => rfl
      | some p =>
        obtain ⟨fs, c⟩ := p
        dsimp only
        rw [renderSpans_closeAt]

theorem assembleOutputFrom_cons_skip (detok : List Int → String) (rewritten : List String)
    (bos eos : Int) (r : Row) (rest : List Row) (preds : List (Int × List String)) (ctr : Nat)
    (hmem : r.exid ∈ alistKeys preds) :
    assembleOutputFrom detok rewritten bos eos (r :: rest) preds ctr =
      assembleOutputFrom detok rewritten bos eos rest preds ctr := by
  simp [assembleOutputFrom, hmem]

theorem assembleOutputFrom_cons_proc (detok : List Int → String) (rewritten : List String)
    (bos eos : Int) (r : Row) (rest : List Row) (preds : List (Int × List String)) (ctr : Nat)
    (hmem : r.exid ∉ alistKeys preds) :
    assembleOutputFrom detok rewritten bos eos (r :: rest) preds ctr =
      match assembleRow detok rewritten bos eos r.tokens r.tags ctr with
      | none => none
      | some (fs, c1) =>
        assembleOutputFrom detok rewritten bos eos rest (appendFrags preds r.exid fs) c1 := by
  simp [assembleOutputFrom, hmem]

/-- Batch assembly processes a concatenation of row lists in sequence. -/
theorem assembleOutputFrom_append (detok : List Int → String) (rewritten : List String)
    (bos eos : Int) :
    ∀ (xs ys : List Row) (preds : List (Int × List String)) (ctr : Nat),
      assembleOutputFrom detok rewritten bos eos (xs ++ ys) preds ctr =
        match assembleOutputFrom detok rewritten bos eos xs preds ctr with
        | none => none
        | some (p, c) => assembleOutputFrom detok rewritten bos eos ys p c := by
  intro xs
  induction xs with
  | nil => intro ys preds ctr; rfl
  | cons r rest ih =>
    intro ys preds ctr
    by_cases hmem : r.exid ∈ alistKeys preds
    · have h1 : (r :: rest) ++ ys = r :: (rest ++ ys) := rfl
      rw [h1, assembleOutputFrom_cons_skip detok rewritten bos eos r (rest ++ ys) preds ctr hmem,
        assembleOutputFrom_cons_skip detok rewritten bos eos r rest preds ctr hmem, ih]
    · have h1 : (r :: rest) ++ ys = r :: (rest ++ ys) := rfl
      rw [h1, assembleOutputFrom_cons_proc detok rewritten bos eos r (rest ++ ys) preds ctr hmem,
        assembleOutputFrom_cons_proc detok rewritten bos eos r rest preds ctr hmem]
      cases assembleRow detok rewritten bos eos r.tokens r.tags ctr with
      | none => rfl
      | some p =>
        obtain ⟨fs, c1⟩ := p
        dsimp only
        exact ih ys (appendFrags preds r.exid fs) c1

theorem alistAppend_mem_keys (l : List (Int × List String)) (i : Int) (f : String) :
    i ∈ alistKeys (alistAppend l i f) := by
  induction l with
  | nil => simp [alistAppend, alistKeys]
  | cons kv rest ih =>
    obtain ⟨k, v⟩ := kv
    by_cases hk : k = i
    · simp [alistAppend, hk, alistKeys]
    · simp only [alistAppend, if_neg hk, alistKeys, List.map_cons, List.mem_cons]
      exact Or.inr ih

theorem alistAppend_keys_sub (l : List (Int × List String)) (i : Int) (f : String)
    (x : Int) (hx : x ∈ alistKeys l) : x ∈ alistKeys (alistAppend l i f) := by
  induction l with
  | nil => simp [alistKeys] at hx
  | cons kv rest ih =>
    obtain ⟨k, v⟩ := kv
    by_cases hk : k = i
    · simpa [alistAppend, hk, alistKeys] using hx
    · simp only [alistKeys, List.map_cons, List.mem_cons] at hx
      rcases hx with hx | hx
      · simp [alistAppend, if_neg hk, alistKeys, hx]
      · simp only [alistAppend, if_neg hk, alistKeys, List.map_cons, List.mem_cons]
        exact Or.inr (ih hx)

theorem appendFrags_keys_sub (i : Int) :
    ∀ (fs : List String) (preds : List (Int × List String)) (x : Int),
      x ∈ alistKeys preds → x ∈ alistKeys (appendFrags preds i fs) := by
  intro fs
  induction fs with
  | nil => intro preds x hx; exact hx
  | cons f rest ih =>
    intro preds x hx
    exact ih (alistAppend preds i f) x (alistAppend_keys_sub preds i f x hx)

theorem appendFrags_mem (i : Int) :
    ∀ (fs : List String) (preds : List (Int × List String)), fs ≠ [] →
      i ∈ alistKeys (appendFrags preds i fs) := by
  intro fs
  cases fs with
  | nil => intro preds h; exact absurd rfl h
  | cons f rest =>
    intro preds _
    exact appendFrags_keys_sub i rest (alistAppend preds i f) i (alistAppend_mem_keys preds i f)

/-- Batch assembly never drops ids: keys only grow. -/
theorem assembleOutputFrom_keys (detok : List Int → String) (rewritten : List String)
    (bos eos : Int) :
    ∀ (rows : List Row) (preds : List (Int × List String)) (ctr : Nat)
      (p : List (Int × List String)) (c : Nat),
      assembleOutputFrom detok rewritten bos eos rows preds ctr = some (p, c) →
      ∀ x ∈ alistKeys preds, x ∈ alistKeys p := by
  intro rows
  induction rows with
  | nil =>
    intro preds ctr p c h x hx
    simp only [assembleOutputFrom] at h
    injection h with h
    injection h with h1 h2
    subst h1
    exact hx
  | cons r rest ih =>
    intro preds ctr p c h x hx
    by_cases hmem : r.exid ∈ alistKeys preds
    · rw [assembleOutputFrom_cons_skip detok rewritten bos eos r rest preds ctr hmem] at h
      exact ih preds ctr p c h x hx
    · rw [assembleOutputFrom_cons_proc detok rewritten bos eos r rest preds ctr hmem] at h
      cases hr : assembleRow detok rewritten bos eos r.tokens r.tags ctr with
      | none => rw [hr] at h; exact absurd h (by simp)
      | some q =>
        obtain ⟨fs, c1⟩ := q
        rw [hr] at h
        exact ih (appendFrags preds r.exid fs) c1 p c h x (appendFrags_keys_sub r.exid fs preds x hx)

theorem batchCountB_nil : batchCountB [] = 0 := rfl

theorem batchCountB_cons (r : Row) (rest : List Row) :
    batchCountB (r :: rest) = rowCountB r + batchCountB rest := by
  simp [batchCountB]

theorem batchCountB_append (xs ys : List Row) :
    batchCountB (xs ++ ys) = batchCountB xs + batchCountB ys := by
  simp [batchCountB]

/-- For a well-formed row, a successful row assembly advances the counter by
exactly the row's Rewrite-span count and appends exactly one fragment per
span of the shared rule. -/
theorem assembleRow_consume (detok : List Int → String) (rewritten : List String)
    (bos eos : Int) (r : Row) (ctr : Nat) (fs : List String) (c : Nat)
    (hwf : RowWF bos eos r)
    (h : assembleRow detok rewritten bos eos r.tokens r.tags ctr = some (fs, c)) :
    c = ctr + rowCountB r ∧ fs.length = (chunk r.tags (r.lenC - 1)).length := by
  rw [assembleRow_eq_spans, assembleSpans_eq_chunk bos eos r.tokens r.tags r.lenC hwf] at h
  have h2 := renderSpans_count detok rewritten r.tokens (chunk r.tags (r.lenC - 1)) ctr fs c h
  exact ⟨h2.1, h2.2⟩

/-- Counter upper bound for batch assembly over well-formed rows. -/
theorem assembleOutputFrom_count (detok : List Int → String) (rewritten : List String)
    (bos eos : Int) :
    ∀ (rows : List Row) (preds : List (Int × List String)) (ctr : Nat)
      (p : List (Int × List String)) (c : Nat),
      (∀ r ∈ rows, RowWF bos eos r) →
      assembleOutputFrom detok rewritten bos eos rows preds ctr = some (p, c) →
      c ≤ ctr + batchCountB rows := by
  intro rows
  induction rows with
  | nil =>
    intro preds ctr p c _ h
    simp only [assembleOutputFrom] at h
    injection h with h
    injection h with h1 h2
    subst h2
    simp [batchCountB_nil]
  | cons r rest ih =>
    intro preds ctr p c hwf h
    rw [batchCountB_cons]
    by_cases hmem : r.exid ∈ alistKeys preds
    · rw [assembleOutputFrom_cons_skip detok rewritten bos eos r rest preds ctr hmem] at h
      have := ih preds ctr p c (fun x hx => hwf x (List.mem_cons_of_mem r hx)) h
      omega
    · rw [assembleOutputFrom_cons_proc detok rewritten bos eos r rest preds ctr hmem] at h
      cases hr : assembleRow detok rewritten bos eos r.tokens r.tags ctr with
      | none => rw [hr] at h; exact absurd h (by simp)
      | some q =>
        obtain ⟨fs, c1⟩ := q
        rw [hr] at h
        have hcons := assembleRow_consume detok rewritten bos eos r ctr fs c1
          (hwf r (List.mem_cons_self r rest)) hr
        have := ih (appendFrags preds r.exid fs) c1 p c
          (fun x hx => hwf x (List.mem_cons_of_mem r hx)) h
        have hrc : c1 = ctr + rowCountB r := hcons.1
        omega

/-- A successful render never moves the counter backwards and never past the
end of the rewritten list. -/
theorem renderSpans_le (detok : List Int → String) (rewritten : List String)
    (toks : List Int) :
    ∀ (sps : List Span) (ctr : Nat) (fs : List String) (c : Nat),
      renderSpans detok rewritten toks sps ctr = some (fs, c) →
      ctr ≤ c ∧ (ctr ≤ rewritten.length → c ≤ rewritten.length) := by
  intro sps
  induction sps with
  | nil =>
    intro ctr fs c h
    simp only [renderSpans] at h
    injection h with h
    injection h with h1 h2
    subst h2
    exact ⟨le_refl _, fun hh => hh⟩
  | cons sp rest ih =>
    intro ctr fs c h
    obtain ⟨cc, s, e⟩ := sp
    cases cc with
    | O =>
      simp only [renderSpans, decode] at h
      cases hr : renderSpans detok rewritten toks rest ctr with
      | none => rw [hr] at h; exact absurd h (by simp)
      | some q =>
        obtain ⟨fs2, c2⟩ := q
        simp only [hr] at h
        injection h with h
        injection h with hh1 hh2
        subst hh2
        exact ih ctr fs2 c2 hr
    | B =>
      simp only [renderSpans, decode] at h
      cases hg : rewritten.get? ctr with
      | none => rw [hg] at h; exact absurd h (by simp)
      | some str =>
        simp only [hg] at h
        cases hr : renderSpans detok rewritten toks rest (ctr + 1) with
        | none => rw [hr] at h; exact absurd h (by simp)
        | some q =>
          obtain ⟨fs2, c2⟩ := q
          simp only [hr] at h
          injection h with h
          injection h with hh1 hh2
          subst hh2
          obtain ⟨hm, hb⟩ := ih (ctr + 1) fs2 c2 hr
          obtain ⟨hlt, _⟩ := List.get?_eq_some.1 hg
          exact ⟨by omega, fun _ => hb (by omega)⟩

theorem take_get?_eq {α : Type} (l : List α) (m i : Nat) (h : i < m) :
    (l.take m).get? i = l.get? i :=
  List.get?_take h

theorem take_get?_none {α : Type} (l : List α) (m i : Nat) (h : m ≤ i) :
    (l.take m).get? i = none := by
  apply List.get?_eq_none.2
  calc (l.take m).length ≤ m := by rw [List.length_take]; exact min_le_left _ _
    _ ≤ i := h

/-- Rendering against a truncation of the rewritten list: truncating below
the final counter fails, truncating at or above it changes nothing. -/
theorem renderSpans_take (detok : List Int → String) (rewritten : List String)
    (toks : List Int) :
    ∀ (sps : List Span) (ctr : Nat) (fs : List String) (c : Nat),
      renderSpans detok rewritten toks sps ctr = some (fs, c) →
      ∀ m, ctr ≤ m →
        (m < c → renderSpans detok (rewritten.take m) toks sps ctr = none) ∧
        (c ≤ m → renderSpans detok (rewritten.take m) toks sps ctr = some (fs, c)) := by
  intro sps
  induction sps with
  | nil =>
    intro ctr fs c h m hm
    simp only [renderSpans] at h
    injection h with h
    injection h with h1 h2
    subst h1; subst h2
    exact ⟨fun hlt => absurd hlt (by omega), fun _ => rfl⟩
  | cons sp rest ih =>
    intro ctr fs c h m hm
    obtain ⟨cc, s, e⟩ := sp
    cases cc with
    | O =>
      simp only [renderSpans, decode] at h ⊢
      cases hr : renderSpans detok rewritten toks rest ctr with
      | none => rw [hr] at h; exact absurd h (by simp)
      | some q =>
        obtain ⟨fs2, c2⟩ := q
        simp only [hr] at h
        injection h with h
        injection h with hh1 hh2
        subst hh1; subst hh2
        obtain ⟨hn, hs⟩ := ih ctr fs2 c2 hr m hm
        constructor
        · intro hlt
          rw [hn hlt]
        · intro hge
          rw [hs hge]
    | B =>
      simp only [renderSpans, decode] at h ⊢
      cases hg : rewritten.get? ctr with
      | none => rw [hg] at h; exact absurd h (by simp)
      | some str =>
        simp only [hg] at h
        cases hr : renderSpans detok rewritten toks rest (ctr + 1) with
        | none => rw [hr] at h; exact absurd h (by simp)
        | some q =>
          obtain ⟨fs2, c2⟩ := q
          simp only [hr] at h
          injection h with h
          injection h with hh1 hh2
          subst hh1; subst hh2
          have hc1 : ctr + 1 ≤ c2 :=
            (renderSpans_le detok rewritten toks rest (ctr + 1) fs2 c2 hr).1
          by_cases hcm : ctr < m
          · have hgt : (rewritten.take m).get? ctr = some str := by
              rw [take_get?_eq rewritten m ctr hcm]; exact hg
            obtain ⟨hn, hs⟩ := ih (ctr + 1) fs2 c2 hr m (by omega)
            rw [hgt]
            dsimp only
            constructor
            · intro hlt
              rw [hn hlt]
            · intro hge
              rw [hs hge]
          · have hgt : (rewritten.take m).get? ctr = none :=
              take_get?_none rewritten m ctr (by omega)
            rw [hgt]
            exact ⟨fun _ => rfl, fun hge => absurd hge (by omega)⟩

/-- Row-level counter facts: never backwards, never past the end. -/
theorem assembleRow_le (detok : List Int → String) (rewritten : List String)
    (bos eos : Int) (toks : List Int) (tags : List Tag) (ctr : Nat)
    (fs : List String) (c : Nat)
    (h : assembleRow detok rewritten bos eos toks tags ctr = some (fs, c)) :
    ctr ≤ c ∧ (ctr ≤ rewritten.length → c ≤ rewritten.length) := by
  rw [assembleRow_eq_spans] at h
  cases hs : assembleSpans toks tags bos eos with
  | none => rw [hs] at h; exact absurd h (by simp)
  | some sps =>
    rw [hs] at h
    exact renderSpans_le detok rewritten toks sps ctr fs c h

/-- Row-level truncation: truncating the rewritten list below the row's final
counter makes the row fail, truncating at or above it changes nothing. -/
theorem assembleRow_take (detok : List Int → String) (rewritten : List String)
    (bos eos : Int) (toks : List Int) (tags : List Tag) (ctr : Nat)
    (fs : List String) (c : Nat)
    (h : assembleRow detok rewritten bos eos toks tags ctr = some (fs, c)) :
    ∀ m, ctr ≤ m →
      (m < c → assembleRow detok (rewritten.take m) bos eos toks tags ctr = none) ∧
      (c ≤ m → assembleRow detok (rewritten.take m) bos eos toks tags ctr = some (fs, c)) := by
  intro m hm
  rw [assembleRow_eq_spans] at h
  cases hs : assembleSpans toks tags bos eos with
  | none => rw [hs] at h; exact absurd h (by simp)
  | some sps =>
    rw [hs] at h
    obtain ⟨hn, hsome⟩ := renderSpans_take detok rewritten toks sps ctr fs c h m hm
    constructor
    · intro hlt
      rw [assembleRow_eq_spans, hs]
      exact hn hlt
    · intro hge
      rw [assembleRow_eq_spans, hs]
      exact hsome hge

/-- Batch-level counter monotonicity. -/
theorem assembleOutputFrom_mono (detok : List Int → String) (rewritten : List String)
    (bos eos : Int) :
    ∀ (rows : List Row) (preds : List (Int × List String)) (ctr : Nat)
      (p : List (Int × List String)) (c : Nat),
      assembleOutputFrom detok rewritten bos eos rows preds ctr = some (p, c) →
      ctr ≤ c ∧ (ctr ≤ rewritten.length → c ≤ rewritten.length) := by
  intro rows
  induction rows with
  | nil =>
    intro preds ctr p c h
    simp only [assembleOutputFrom] at h
    injection h with h
    injection h with h1 h2
    subst h2
    exact ⟨le_refl _, fun hh => hh⟩
  | cons r rest ih =>
    intro preds ctr p c h
    by_cases hmem : r.exid ∈ alistKeys preds
    · rw [assembleOutputFrom_cons_skip detok rewritten bos eos r rest preds ctr hmem] at h
      exact ih preds ctr p c h
    · rw [assembleOutputFrom_cons_proc detok rewritten bos eos r rest preds ctr hmem] at h
      cases hr : assembleRow detok rewritten bos eos r.tokens r.tags ctr with
      | none => rw [hr] at h; exact absurd h (by simp)
      | some q =>
        obtain ⟨fs, c1⟩ := q
        rw [hr] at h
        obtain ⟨hm1, hb1⟩ := assembleRow_le detok rewritten bos eos r.tokens r.tags ctr fs c1 hr
        obtain ⟨hm2, hb2⟩ := ih (appendFrags preds r.exid fs) c1 p c h
        exact ⟨by omega, fun hh => hb2 (hb1 hh)⟩

/-- Batch-level truncation: truncating the rewritten list below the batch's
final counter makes assembly fail, truncating at or above it changes
nothing. -/
theorem assembleOutputFrom_take (detok : List Int → String) (rewritten : List String)
    (bos eos : Int) :
    ∀ (rows : List Row) (preds : List (Int × List String)) (ctr : Nat)
      (p : List (Int × List String)) (c : Nat),
      assembleOutputFrom detok rewritten bos eos rows preds ctr = some (p, c) →
      ∀ m, ctr ≤ m →
        (m < c → assembleOutputFrom detok (rewritten.take m) bos eos rows preds ctr = none) ∧
        (c ≤ m → assembleOutputFrom detok (rewritten.take m) bos eos rows preds ctr = some (p, c)) := by
  intro rows
  induction rows with
  | nil =>
    intro preds ctr p c h m hm
    simp only [assembleOutputFrom] at h
    injection h with h
    injection h with h1 h2
    subst h1; subst h2
    exact ⟨fun hlt => absurd hlt (by omega), fun _ => rfl⟩
  | cons r rest ih =>
    intro preds ctr p c h m hm
    by_cases hmem : r.exid ∈ alistKeys preds
    · rw [assembleOutputFrom_cons_skip detok rewritten bos eos r rest preds ctr hmem] at h
      obtain ⟨hn, hs⟩ := ih preds ctr p c h m hm
      constructor
      · intro hlt
        rw [assembleOutputFrom_cons_skip detok (rewritten.take m) bos eos r rest preds ctr hmem]
        exact hn hlt
      · intro hge
        rw [assembleOutputFrom_cons_skip detok (rewritten.take m) bos eos r rest preds ctr hmem]
        exact hs hge
    · rw [assembleOutputFrom_cons_proc detok rewritten bos eos r rest preds ctr hmem] at h
      cases hr : assembleRow detok rewritten bos eos r.tokens r.tags ctr with
      | none => rw [hr] at h; exact absurd h (by simp)
      | some q =>
        obtain ⟨fs, c1⟩ := q
        rw [hr] at h
        have hc1 : ctr ≤ c1 :=
          (assembleRow_le detok rewritten bos eos r.tokens r.tags ctr fs c1 hr).1
        have hcc : c1 ≤ c :=
          (assembleOutputFrom_mono detok rewritten bos eos rest
            (appendFrags preds r.exid fs) c1 p c h).1
        obtain ⟨hrn, hrs⟩ :=
          assembleRow_take detok rewritten bos eos r.tokens r.tags ctr fs c1 hr m hm
        constructor
        · intro hlt
          rw [assembleOutputFrom_cons_proc detok (rewritten.take m) bos eos r rest preds ctr hmem]
          by_cases hmc1 : m < c1
          · rw [hrn hmc1]
          · have hge1 : c1 ≤ m := by omega
            rw [hrs hge1]
            dsimp only
            exact (ih (appendFrags preds r.exid fs) c1 p c h m hge1).1 hlt
        · intro hge
          rw [assembleOutputFrom_cons_proc detok (rewritten.take m) bos eos r rest preds ctr hmem]
          rw [hrs (by omega)]
          dsimp only
          exact (ih (appendFrags preds r.exid fs) c1 p c h m (by omega)).2 hge

theorem alistAppend_fresh (i : Int) (f : String) :
    ∀ (l : List (Int × List String)), i ∉ alistKeys l →
      alistAppend l i f = l ++ [(i, [f])] := by
  intro l
  induction l with
  | nil => intro _; rfl
  | cons kv rest ih =>
    intro hmem
    obtain ⟨k, v⟩ := kv
    simp only [alistKeys, List.map_cons, List.mem_cons] at hmem
    push_neg at hmem
    rw [show alistAppend ((k, v) :: rest) i f =
        if k = i then (k, v ++ [f]) :: rest else (k, v) :: alistAppend rest i f from rfl]
    rw [if_neg (fun hh => hmem.1 hh.symm), ih (by simpa [alistKeys] using hmem.2)]
    rfl

theorem alistAppend_last (i : Int) (f : String) (v : List String) :
    ∀ (l : List (Int × List String)), i ∉ alistKeys l →
      alistAppend (l ++ [(i, v)]) i f = l ++ [(i, v ++ [f])] := by
  intro l
  induction l with
  | nil =>
    intro _
    simp [alistAppend]
  | cons kv rest ih =>
    intro hmem
    obtain ⟨k, w⟩ := kv
    simp only [alistKeys, List.map_cons, List.mem_cons] at hmem
    push_neg at hmem
    have h1 : ((k, w) :: rest) ++ [(i, v)] = (k, w) :: (rest ++ [(i, v)]) := rfl
    rw [h1]
    rw [show alistAppend ((k, w) :: (rest ++ [(i, v)])) i f =
        if k = i then (k, w ++ [f]) :: (rest ++ [(i, v)])
        else (k, w) :: alistAppend (rest ++ [(i, v)]) i f from rfl]
    rw [if_neg (fun hh => hmem.1 hh.symm), ih (by simpa [alistKeys] using hmem.2)]
    rfl

theorem appendFrags_last (i : Int) :
    ∀ (fs : List String) (l : List (Int × List String)) (v : List String),
      i ∉ alistKeys l →
      appendFrags (l ++ [(i, v)]) i fs = l ++ [(i, v ++ fs)] := by
  intro fs
  induction fs with
  | nil => intro l v _; simp [appendFrags]
  | cons f rest ih =>
    intro l v hmem
    show appendFrags (alistAppend (l ++ [(i, v)]) i f) i rest = _
    rw [alistAppend_last i f v l hmem, ih l (v ++ [f]) hmem, List.append_assoc]
    rfl

/-- Appending a fragment list for an id not yet in the map: no entry at all
for an empty list (`defaultdict` creates entries only on append), otherwise a
single new entry at the end. -/
theorem appendFrags_fresh (i : Int) (fs : List String) (l : List (Int × List String))
    (hmem : i ∉ alistKeys l) :
    appendFrags l i fs = if fs = [] then l else l ++ [(i, fs)] := by
  cases fs with
  | nil => simp [appendFrags]
  | cons f rest =>
    rw [if_neg (by simp)]
    show appendFrags (alistAppend l i f) i rest = _
    rw [alistAppend_fresh i f l hmem, appendFrags_last i rest l [f] hmem]
    rfl

/-- A batch whose rows are well-formed and produce no rewrite request
assembles to the all-verbatim reconstruction without touching the rewritten
list or the counter. -/
theorem assembleOutputFrom_verbatim (detok : List Int → String) (rewritten : List String)
    (bos eos : Int) :
    ∀ (rows : List Row) (preds : List (Int × List String)) (ctr : Nat),
      (∀ r ∈ rows, RowWF bos eos r) →
      (∀ r ∈ rows, inferenceRowRequests r.tags r.lenC = []) →
      assembleOutputFrom detok rewritten bos eos rows preds ctr =
        some (verbatimBatch detok rows preds, ctr) := by
  intro rows
  induction rows with
  | nil => intro preds ctr _ _; rfl
  | cons r rest ih =>
    intro preds ctr hwf hreq
    by_cases hmem : r.exid ∈ alistKeys preds
    · rw [assembleOutputFrom_cons_skip detok rewritten bos eos r rest preds ctr hmem,
        ih preds ctr (fun x hx => hwf x (List.mem_cons_of_mem r hx))
          (fun x hx => hreq x (List.mem_cons_of_mem r hx))]
      rw [show verbatimBatch detok (r :: rest) preds = verbatimBatch detok rest preds from by
        simp [verbatimBatch, hmem]]
    · have hcount : countB (chunk r.tags (r.lenC - 1)) = 0 := by
        rw [countB_eq_requests_length, ← inferenceRowRequests_eq_chunk]
        rw [hreq r (List.mem_cons_self r rest)]
        rfl
      have hrow : assembleRow detok rewritten bos eos r.tokens r.tags ctr =
          some (verbatimRow detok r.tokens r.tags r.lenC, ctr) := by
        rw [assembleRow_eq_spans,
          assembleSpans_eq_chunk bos eos r.tokens r.tags r.lenC (hwf r (List.mem_cons_self r rest))]
        exact renderSpans_noB detok rewritten r.tokens (chunk r.tags (r.lenC - 1)) ctr hcount
      rw [assembleOutputFrom_cons_proc detok rewritten bos eos r rest preds ctr hmem, hrow]
      dsimp only
      rw [ih (appendFrags preds r.exid (verbatimRow detok r.tokens r.tags r.lenC)) ctr
        (fun x hx => hwf x (List.mem_cons_of_mem r hx))
        (fun x hx => hreq x (List.mem_cons_of_mem r hx))]
      rw [appendFrags_fresh r.exid (verbatimRow detok r.tokens r.tags r.lenC) preds hmem]
      cases hv : verbatimRow detok r.tokens r.tags r.lenC with
      | nil =>
        rw [show verbatimBatch detok (r :: rest) preds = verbatimBatch detok rest preds from by
          simp [verbatimBatch, hmem, hv]]
        rw [if_pos rfl]
      | cons f fs =>
        rw [if_neg (by simp)]
        rw [show verbatimBatch detok (r :: rest) preds =
            verbatimBatch detok rest (preds ++ [(r.exid, f :: fs)]) from by
          simp [verbatimBatch, hmem, hv]]

/-- A row whose second token is already the end marker (or whose tag row has
a single entry) appends nothing, raises nothing and leaves the counter
untouched. -/
theorem assembleRow_degenerate (detok : List Int → String) (rewritten : List String)
    (bos eos : Int) (toks : List Int) (tags : List Tag) (ctr : Nat)
    (h0 : toks.get? 0 = some bos)
    (h1 : tags ≠ [])
    (h2 : 2 ≤ tags.length → toks.get? 1 = some eos)
    (hne : eos ≠ bos) :
    assembleRow detok rewritten bos eos toks tags ctr = some ([], ctr) := by
  cases tags with
  | nil => exact absurd rfl h1
  | cons t rest =>
    have hgo0 : assembleGo detok rewritten toks bos eos (t :: rest) 0 none ctr =
        assembleGo detok rewritten toks bos eos rest 1 none ctr := by
      simp only [assembleGo, h0]
      rw [if_pos trivial]
    cases rest with
    | nil =>
      show (match assembleGo detok rewritten toks bos eos [t] 0 none ctr with
        | none => none
        | some (fs, op, jl, c) =>
          match decode detok rewritten toks op jl c with
          | none => none
          | some (fs2, c2) => some (fs ++ fs2, c2)) = some ([], ctr)
      rw [hgo0]
      rfl
    | cons t2 rest2 =>
      have htok1 : toks.get? 1 = some eos := h2 (by simp)
      have hgo1 : assembleGo detok rewritten toks bos eos (t2 :: rest2) 1 none ctr =
          some ([], none, 1, ctr) := by
        simp only [assembleGo, htok1]
        rw [if_neg hne, if_pos trivial]
      show (match assembleGo detok rewritten toks bos eos (t :: t2 :: rest2) 0 none ctr with
        | none => none
        | some (fs, op, jl, c) =>
          match decode detok rewritten toks op jl c with
          | none => none
          | some (fs2, c2) => some (fs ++ fs2, c2)) = some ([], ctr)
      rw [hgo0, hgo1]
      rfl

/-- After the first fragment-producing row of an id (well-formed, at least
one span), the id is a key of the accumulated map, and the counter has
advanced by at most the row's Rewrite-span count. -/
theorem assembleOutputFrom_first_key (detok : List Int → String) (rewritten : List String)
    (bos eos : Int) (r : Row) (rest : List Row) (preds : List (Int × List String))
    (ctr : Nat) (p : List (Int × List String)) (c : Nat)
    (hwf : RowWF bos eos r) (hch : chunk r.tags (r.lenC - 1) ≠ [])
    (h : assembleOutputFrom detok rewritten bos eos (r :: rest) preds ctr = some (p, c)) :
    ∃ preds1 c1, assembleOutputFrom detok rewritten bos eos rest preds1 c1 = some (p, c) ∧
      r.exid ∈ alistKeys preds1 ∧ c1 ≤ ctr + rowCountB r := by
  by_cases hmem : r.exid ∈ alistKeys preds
  · rw [assembleOutputFrom_cons_skip detok rewritten bos eos r rest preds ctr hmem] at h
    exact ⟨preds, ctr, h, hmem, by omega⟩
  · rw [assembleOutputFrom_cons_proc detok rewritten bos eos r rest preds ctr hmem] at h
    cases hr : assembleRow detok rewritten bos eos r.tokens r.tags ctr with
    | none => rw [hr] at h; exact absurd h (by simp)
    | some q =>
      obtain ⟨fs, c1⟩ := q
      rw [hr] at h
      obtain ⟨hcount, hlen⟩ := assembleRow_consume detok rewritten bos eos r ctr fs c1 hwf hr
      have hfs : fs ≠ [] := by
        intro hh
        rw [hh] at hlen
        exact hch (List.length_eq_zero.1 hlen.symm)
      exact ⟨appendFrags preds r.exid fs, c1, h, appendFrags_mem r.exid fs preds hfs, by omega⟩

theorem inferenceRequests_cons (r : Row) (rest : List Row) :
    inferenceRequests (r :: rest) =
      inferenceRowRequests r.tags r.lenC ++ inferenceRequests rest := by
  simp [inferenceRequests]

/-- The batch request count is the total Rewrite-span count of the shared
rule: extraction emits a request for every row, duplicates included. -/
theorem inferenceRequestCount_eq_batchCountB (rows : List Row) :
    inferenceRequestCount rows = batchCountB rows := by
  induction rows with
  | nil => rfl
  | cons r rest ih =>
    rw [batchCountB_cons, ← ih]
    show (inferenceRequests (r :: rest)).length = _
    rw [inferenceRequests_cons, List.length_append]
    rw [show (inferenceRowRequests r.tags r.lenC).length = rowCountB r from by
      rw [inferenceRowRequests_eq_chunk, rowCountB, countB_eq_requests_length]]
    rfl

/-- A batch with no request has no per-row request either. -/
theorem inferenceRequests_eq_nil (rows : List Row) (h : inferenceRequests rows = []) :
    ∀ r ∈ rows, inferenceRowRequests r.tags r.lenC = [] := by
  induction rows with
  | nil => intro r hr; simp at hr
  | cons r0 rest ih =>
    intro r hr
    rw [inferenceRequests_cons] at h
    obtain ⟨h1, h2⟩ := List.append_eq_nil.1 h
    rcases List.mem_cons.1 hr with hr | hr
    · subst hr; exact h1
    · exact ih h2 r hr

theorem alistLookup_append (i : Int) :
    ∀ (l1 l2 : List (Int × List String)),
      alistLookup (l1 ++ l2) i =
        match alistLookup l1 i with
        | some v => some v
        | none => alistLookup l2 i := by
  intro l1 l2
  induction l1 with
  | nil => rfl
  | cons kv rest ih =>
    obtain ⟨k, v⟩ := kv
    by_cases hk : k = i
    · simp [alistLookup, hk]
    · simp only [List.cons_append, alistLookup, if_neg hk]
      exact ih

theorem alistLookup_mapped (preds : List (Int × List String)) (i : Int) :
    ∀ (acc : List (Int × List String)),
      alistLookup (acc.map fun kv =>
        match alistLookup preds kv.1 with
        | some v => (kv.1, v)
        | none => kv) i =
      match alistLookup acc i with
      | none => none
      | some w =>
        match alistLookup preds i with
        | some v => some v
        | none => some w := by
  intro acc
  induction acc with
  | nil => rfl
  | cons kv rest ih =>
    obtain ⟨k, v⟩ := kv
    by_cases hk : k = i
    · subst hk
      cases hp : alistLookup preds k with
      | none => simp [alistLookup, hp]
      | some w => simp [alistLookup, hp]
    · cases hp : alistLookup preds k with
      | none => simpa [alistLookup, hp, if_neg hk] using ih
      | some w => simpa [alistLookup, hp, if_neg hk] using ih

theorem alistLookup_filter_acc (acc : List (Int × List String)) (i : Int)
    (hacc : alistLookup acc i = none) :
    ∀ (preds : List (Int × List String)),
      alistLookup (preds.filter fun kv => (alistLookup acc kv.1).isNone) i =
        alistLookup preds i := by
  intro preds
  induction preds with
  | nil => rfl
  | cons kv rest ih =>
    obtain ⟨k, v⟩ := kv
    by_cases hk : k = i
    · subst hk
      rw [List.filter_cons, if_pos (by simp [hacc])]
      simp [alistLookup]
    · rw [List.filter_cons]
      by_cases hq : (alistLookup acc k).isNone = true
      · rw [if_pos (by simpa using hq)]
        simpa [alistLookup, if_neg hk] using ih
      · rw [if_neg (by simpa using hq)]
        rw [show alistLookup ((k, v) :: rest) i = alistLookup rest i from by
          simp [alistLookup, if_neg hk]]
        exact ih

/-- `dict.update` semantics, overwrite direction: a key present in the new
batch's map ends up with the new batch's value. -/
theorem dictUpdate_lookup_right (acc preds : List (Int × List String)) (i : Int)
    (v : List String) (h : alistLookup preds i = some v) :
    alistLookup (dictUpdate acc preds) i = some v := by
  rw [dictUpdate, alistLookup_append, alistLookup_mapped]
  cases hacc : alistLookup acc i with
  | none =>
    dsimp only
    rw [alistLookup_filter_acc acc i hacc preds]
    exact h
  | some w =>
    dsimp only
    rw [h]

/-- `dict.update` semantics, preserve direction: a key absent from the new
batch's map keeps its accumulated value. -/
theorem dictUpdate_lookup_left (acc preds : List (Int × List String)) (i : Int)
    (h : alistLookup preds i = none) :
    alistLookup (dictUpdate acc preds) i = alistLookup acc i := by
  rw [dictUpdate, alistLookup_append, alistLookup_mapped]
  cases hacc : alistLookup acc i with
  | none =>
    dsimp only
    rw [alistLookup_filter_acc acc i hacc preds]
    exact h
  | some w =>
    dsimp only
    rw [h]

/-- C1 counterexample: on a row whose token list carries no end marker and
whose valid length is 2, the extractor (which stops at `len_context - 1`)
emits no request, while the assembler walk (which stops only at an
end-marker token) closes three Rewrite spans — so the two walks do not
produce identical span sequences for every batch input. -/
theorem c1_walks_not_identical :
    inferenceRowRequests [Tag.OI, Tag.BI, Tag.BI, Tag.BI] 2 = [] ∧
    assembleSpans [0, 5, 5, 5] [Tag.OI, Tag.BI, Tag.BI, Tag.BI] 0 1 =
      some [⟨Cat.B, 1, 2⟩, ⟨Cat.B, 2, 3⟩, ⟨Cat.B, 3, 3⟩] := by
  exact ⟨by decide, by decide⟩

/-- C1 (amended): for every well-formed row (start marker exactly at index
0, end marker exactly at index `lenC - 1`, neither marker strictly in
between, `2 ≤ lenC ≤` row length), the span walks of `inference` and
`assemble_output` coincide: both equal the shared-rule chunking, so the k-th
Rewrite span consumed by the assembler has exactly the boundaries of the
k-th RewriteRequest produced by the extractor. -/
theorem c1_walks_agree (bos eos : Int) (toks : List Int) (tags : List Tag) (lenC : Nat)
    (h : WFRow bos eos toks tags lenC) :
    assembleSpans toks tags bos eos = some (chunk tags (lenC - 1)) ∧
    inferenceRowRequests tags lenC = requestsOfSpans (chunk tags (lenC - 1)) :=
  ⟨assembleSpans_eq_chunk bos eos toks tags lenC h, inferenceRowRequests_eq_chunk tags lenC⟩

/-- C1 witness: the amended theorem at a concrete well-formed row. -/
theorem c1_walks_agree_witness :
    WFRow 0 1 [0, 10, 5, 5, 20, 1] [Tag.OI, Tag.OI, Tag.BI, Tag.BM, Tag.OI, Tag.OI] 6 ∧
    (assembleSpans [0, 10, 5, 5, 20, 1] [Tag.OI, Tag.OI, Tag.BI, Tag.BM, Tag.OI, Tag.OI] 0 1 =
        some (chunk [Tag.OI, Tag.OI, Tag.BI, Tag.BM, Tag.OI, Tag.OI] 5) ∧
      inferenceRowRequests [Tag.OI, Tag.OI, Tag.BI, Tag.BM, Tag.OI, Tag.OI] 6 =
        requestsOfSpans (chunk [Tag.OI, Tag.OI, Tag.BI, Tag.BM, Tag.OI, Tag.OI] 5)) :=
  ⟨by decide,
   c1_walks_agree 0 1 [0, 10, 5, 5, 20, 1]
     [Tag.OI, Tag.OI, Tag.BI, Tag.BM, Tag.OI, Tag.OI] 6 (by decide)⟩

/-- C2 counterexample: with the end marker at index 1 but valid length 4,
the extractor keeps scanning past the first end-marker index and assigns
tokens at and after it to spans, refuting the claimed common stopping rule
(`claimC2holds` formalizes the claim for one row). -/
theorem c2_stop_rule_violated :
    inferenceRowRequests [Tag.OI, Tag.BI, Tag.BI, Tag.OI] 4 = [(0, 2), (1, 3)] ∧
    claimStop [0, 1, 5, 5] 1 4 = 1 ∧
    claimC2holds 0 1 [0, 1, 5, 5] [Tag.OI, Tag.BI, Tag.BI, Tag.OI] 4 = false := by
  exact ⟨by decide, by decide, by decide⟩

/-- C2 (amended): the two passes have distinct stopping rules — the
extractor stops at index `ValidLength - 1` regardless of tokens, the
assembler at the first end-marker token — but on a well-formed row both stop
at index `lenC - 1`: both walks equal the shared-rule chunking with forced
closure at `lenC - 1`, every span is closed (not dropped) at or before that
index, and no token at or past it is assigned to any span. -/
theorem c2_stop_and_closure (bos eos : Int) (toks : List Int) (tags : List Tag) (lenC : Nat)
    (h : WFRow bos eos toks tags lenC) :
    assembleSpans toks tags bos eos = some (chunk tags (lenC - 1)) ∧
    inferenceRowRequests tags lenC = requestsOfSpans (chunk tags (lenC - 1)) ∧
    ∀ sp ∈ chunk tags (lenC - 1), 1 ≤ sp.start ∧ sp.start < sp.stop ∧ sp.stop ≤ lenC - 1 :=
  ⟨assembleSpans_eq_chunk bos eos toks tags lenC h,
   inferenceRowRequests_eq_chunk tags lenC,
   chunk_bounds tags (lenC - 1)⟩

/-- C2 witness: the amended theorem at a concrete well-formed row. -/
theorem c2_stop_and_closure_witness :
    WFRow 0 1 [0, 8, 8, 1] [Tag.OI, Tag.BI, Tag.BI, Tag.OI] 4 ∧
    assembleSpans [0, 8, 8, 1] [Tag.OI, Tag.BI, Tag.BI, Tag.OI] 0 1 =
      some (chunk [Tag.OI, Tag.BI, Tag.BI, Tag.OI] 3) ∧
    inferenceRowRequests [Tag.OI, Tag.BI, Tag.BI, Tag.OI] 4 =
      requestsOfSpans (chunk [Tag.OI, Tag.BI, Tag.BI, Tag.OI] 3) ∧
    ∀ sp ∈ chunk [Tag.OI, Tag.BI, Tag.BI, Tag.OI] 3,
      1 ≤ sp.start ∧ sp.start < sp.stop ∧ sp.stop ≤ 3 :=
  ⟨by decide,
   (c2_stop_and_closure 0 1 [0, 8, 8, 1] [Tag.OI, Tag.BI, Tag.BI, Tag.OI] 4 (by decide)).1,
   (c2_stop_and_closure 0 1 [0, 8, 8, 1] [Tag.OI, Tag.BI, Tag.BI, Tag.OI] 4 (by decide)).2.1,
   (c2_stop_and_closure 0 1 [0, 8, 8, 1] [Tag.OI, Tag.BI, Tag.BI, Tag.OI] 4 (by decide)).2.2⟩

/-- C3 counterexample: the same example id in a later batch is recomputed
and its entry overwritten by `all_preds.update(preds)` (last-writer-wins,
not first-writer-wins): batch 1 stores `["10"]` for id 7, batch 2 stores
`["five"]`, and the accumulated map ends with `["five"]`; moreover the later
batch's shared cursor does advance (to 1) for that example. -/
theorem c3_later_batch_overwrites :
    assembleOutput detokNum [] 0 1 [⟨7, [0, 10, 1], [Tag.OI, Tag.OI, Tag.OI], 3⟩] =
      some ([(7, ["10"])], 0) ∧
    assembleOutput detokNum ["five"] 0 1 [⟨7, [0, 6, 1], [Tag.OI, Tag.BI, Tag.OI], 3⟩] =
      some ([(7, ["five"])], 1) ∧
    inferLoop detokNum 0 1
      [([⟨7, [0, 10, 1], [Tag.OI, Tag.OI, Tag.OI], 3⟩], []),
       ([⟨7, [0, 6, 1], [Tag.OI, Tag.BI, Tag.OI], 3⟩], ["five"])] [] =
      some [(7, ["five"])] := by
  exact ⟨by decide, by decide, by decide⟩

/-- C3 (amended): deduplication is per batch only.  Across batches
`all_preds.update(preds)` overwrites: an id present in the later batch's map
ends with the later batch's fragment list, and only ids absent from the
later batch keep their accumulated value; a duplicated example is reprocessed
by the later batch and advances that batch's cursor. -/
theorem c3_update_last_writer_wins :
    (∀ (acc preds : List (Int × List String)) (i : Int) (v : List String),
      alistLookup preds i = some v → alistLookup (dictUpdate acc preds) i = some v) ∧
    (∀ (acc preds : List (Int × List String)) (i : Int),
      alistLookup preds i = none → alistLookup (dictUpdate acc preds) i = alistLookup acc i) :=
  ⟨dictUpdate_lookup_right, dictUpdate_lookup_left⟩

/-- C3 witness: both update directions at concrete maps. -/
theorem c3_update_last_writer_wins_witness :
    alistLookup (dictUpdate [(7, ["a"])] [(7, ["b"])]) 7 = some ["b"] ∧
    alistLookup (dictUpdate [(7, ["a"])] [(9, ["c"])]) 7 = some ["a"] :=
  ⟨c3_update_last_writer_wins.1 [(7, ["a"])] [(7, ["b"])] 7 ["b"] (by decide),
   Eq.trans (c3_update_last_writer_wins.2 [(7, ["a"])] [(9, ["c"])] 7 (by decide)) (by decide)⟩

/-- C4 counterexample: a rewritten list longer than the number of Rewrite
spans (2 strings for 1 span) is not detected — assembly succeeds silently,
refuting the claim that any length mismatch raises the fatal error. -/
theorem c4_longer_list_not_detected :
    inferenceRequestCount [rowRewrite] = 1 ∧
    assembleOutput detokNum ["five", "extra"] 0 1 [rowRewrite] =
      some ([(5, ["five"])], 1) := by
  exact ⟨by decide, by decide⟩

/-- C4 (amended): only underrun is fatal.  A successful assembly never reads
past the end of the rewritten list (its final cursor is at most the list
length), and truncating the list strictly below the cursor assembly would
need always fails with the IndexError of `seq_preds[decoder_counter]`; a
longer-than-needed list is silently accepted. -/
theorem c4_underrun_fatal (detok : List Int → String) (rewritten : List String)
    (bos eos : Int) (rows : List Row) (p : List (Int × List String)) (c : Nat)
    (h : assembleOutput detok rewritten bos eos rows = some (p, c)) :
    c ≤ rewritten.length ∧
    ∀ m, m < c → assembleOutput detok (rewritten.take m) bos eos rows = none := by
  constructor
  · exact (assembleOutputFrom_mono detok rewritten bos eos rows [] 0 p c h).2 (Nat.zero_le _)
  · intro m hm
    exact (assembleOutputFrom_take detok rewritten bos eos rows [] 0 p c h m (Nat.zero_le _)).1 hm

/-- C4 witness: the amended theorem at a one-span batch with a one-string
rewritten list, truncated to zero strings. -/
theorem c4_underrun_fatal_witness :
    assembleOutput detokNum ["x"] 0 1 [rowRewrite] = some ([(5, ["x"])], 1) ∧
    1 ≤ (["x"] : List String).length ∧
    assembleOutput detokNum ((["x"] : List String).take 0) 0 1 [rowRewrite] = none :=
  ⟨by decide,
   (c4_underrun_fatal detokNum ["x"] 0 1 [rowRewrite] [(5, ["x"])] 1 (by decide)).1,
   (c4_underrun_fatal detokNum ["x"] 0 1 [rowRewrite] [(5, ["x"])] 1 (by decide)).2 0 (by decide)⟩

/-- C5: the `assert` at lines 535-538 never aborts, because the trailing
comma makes it assert a non-empty 2-tuple, which is truthy in Python
regardless of the anchor comparison; even an input with
`left_column_index ≥ right_column_index` (e.g. `[5]` vs `[3]`, where the
intended check is false) passes the assert silently. -/
theorem c5_assert_never_aborts :
    (∀ (left right : List Nat), anchorsAssertAborts left right = false) ∧
    allAnchorsLt [5] [3] = false :=
  ⟨fun left right => rfl, by decide⟩

/-- C6 counterexample: two adjacent tokens of the same (Rewrite) category
are split into two spans when the second carries the Start tag `B-I`: the
request `(0, 2)` covers token 1 only, although token 2 is considered and of
the same category, so the produced span is not maximal. -/
theorem c6_start_tag_splits_run :
    inferenceRowRequests [Tag.OI, Tag.BI, Tag.BI, Tag.OI] 4 = [(0, 2), (1, 3)] ∧
    (0, 2) ∈ inferenceRowRequests [Tag.OI, Tag.BI, Tag.BI, Tag.OI] 4 ∧
    requestMaximal [Tag.OI, Tag.BI, Tag.BI, Tag.OI] 3 (0, 2) = false := by
  exact ⟨by decide, by decide, by decide⟩

/-- C6 (amended): a new span begins exactly when the Category differs from
the previous considered token's Category, or the raw tag is an opening tag
(`O-I`/`B-I`), or at the first considered token — `chunkGo`'s continuation
test is `oc = tagCat t ∧ isStart t = false`.  The extractor realizes this
rule on Rewrite spans unconditionally; the assembler walk realizes it on
well-formed rows. -/
theorem c6_span_rule :
    (∀ (tags : List Tag) (lenC : Nat),
      inferenceRowRequests tags lenC = requestsOfSpans (chunk tags (lenC - 1))) ∧
    (∀ (bos eos : Int) (toks : List Int) (tags : List Tag) (lenC : Nat),
      WFRow bos eos toks tags lenC →
      assembleSpans toks tags bos eos = some (chunk tags (lenC - 1))) :=
  ⟨inferenceRowRequests_eq_chunk, fun bos eos toks tags lenC h =>
    assembleSpans_eq_chunk bos eos toks tags lenC h⟩

/-- C6 witness: the amended rule at a concrete row where a continuation tag
extends a span across tokens. -/
theorem c6_span_rule_witness :
    inferenceRowRequests [Tag.OI, Tag.BI, Tag.BM, Tag.OI] 4 =
      requestsOfSpans (chunk [Tag.OI, Tag.BI, Tag.BM, Tag.OI] 3) ∧
    WFRow 0 1 [0, 9, 9, 1] [Tag.OI, Tag.BI, Tag.BM, Tag.OI] 4 ∧
    assembleSpans [0, 9, 9, 1] [Tag.OI, Tag.BI, Tag.BM, Tag.OI] 0 1 =
      some (chunk [Tag.OI, Tag.BI, Tag.BM, Tag.OI] 3) :=
  ⟨c6_span_rule.1 [Tag.OI, Tag.BI, Tag.BM, Tag.OI] 4,
   by decide,
   c6_span_rule.2 0 1 [0, 9, 9, 1] [Tag.OI, Tag.BI, Tag.BM, Tag.OI] 4 (by decide)⟩

/-- C7 counterexample, refuting the claim in two ways.  First, a malformed
row (valid length 2, no end-marker token) yields zero requests — so the
rewriter is indeed not invoked — but assembly of the same batch fails (the
assembler walk finds Rewrite spans past the valid length and dereferences
the absent rewriter output), refuting "without error" for every
zero-request batch.  Second, even on a well-formed zero-request batch the
fragments are not "the detokenized maximal Outer runs": on tokens
`[bos, 7, 8, eos]` all tagged OuterStart, the single maximal Outer run
`[7, 8]` is split at the interior OuterStart tag into the two fragments
`["7", "8"]` instead of one fragment `"78"`. -/
theorem c7_zero_requests_error_possible :
    (inferenceRequests [⟨9, [0, 5, 5, 5], [Tag.OI, Tag.BI, Tag.BI, Tag.BI], 2⟩] = [] ∧
      rewriterInvoked [⟨9, [0, 5, 5, 5], [Tag.OI, Tag.BI, Tag.BI, Tag.BI], 2⟩] = false ∧
      assembleOutput detokNum [] 0 1
        [⟨9, [0, 5, 5, 5], [Tag.OI, Tag.BI, Tag.BI, Tag.BI], 2⟩] = none) ∧
    (WFRow 0 1 [0, 7, 8, 1] [Tag.OI, Tag.OI, Tag.OI, Tag.OI] 4 ∧
      inferenceRequests [⟨4, [0, 7, 8, 1], [Tag.OI, Tag.OI, Tag.OI, Tag.OI], 4⟩] = [] ∧
      assembleOutput detokNum [] 0 1
        [⟨4, [0, 7, 8, 1], [Tag.OI, Tag.OI, Tag.OI, Tag.OI], 4⟩] =
        some ([(4, ["7", "8"])], 0) ∧
      detokNum [7, 8] = "78") := by
  exact ⟨⟨by decide, by decide, by decide⟩, by decide, by decide, by decide, by decide⟩

/-- C7 (amended): for a batch of well-formed rows with zero requests, the
rewriter is not invoked and assembly succeeds with the all-verbatim
reconstruction for any rewritten list, leaving the cursor at 0.  The
reconstruction yields one detokenized fragment per Outer span of the shared
rule — a new span opens at every interior OuterStart tag (the C6 rule), so a
maximal Outer run may be split into several fragments — with rows
deduplicated by id and an id entering the map only if it produced at least
one fragment. -/
theorem c7_zero_requests_verbatim (detok : List Int → String) (rewritten : List String)
    (bos eos : Int) (rows : List Row)
    (hwf : ∀ r ∈ rows, RowWF bos eos r)
    (hreq : inferenceRequests rows = []) :
    rewriterInvoked rows = false ∧
    assembleOutput detok rewritten bos eos rows = some (verbatimBatch detok rows [], 0) := by
  constructor
  · simp [rewriterInvoked, hreq]
  · exact assembleOutputFrom_verbatim detok rewritten bos eos rows [] 0 hwf
      (inferenceRequests_eq_nil rows hreq)

/-- C7 witness: the amended theorem at a concrete all-Outer batch with a
non-empty (untouched) rewritten list; the second row's single maximal Outer
run is reconstructed as the two per-span fragments `["7", "8"]`. -/
theorem c7_zero_requests_verbatim_witness :
    (∀ r ∈ [rowOuter, ⟨4, [0, 7, 8, 1], [Tag.OI, Tag.OI, Tag.OI, Tag.OI], 4⟩], RowWF 0 1 r) ∧
    inferenceRequests [rowOuter, ⟨4, [0, 7, 8, 1], [Tag.OI, Tag.OI, Tag.OI, Tag.OI], 4⟩] = [] ∧
    rewriterInvoked [rowOuter, ⟨4, [0, 7, 8, 1], [Tag.OI, Tag.OI, Tag.OI, Tag.OI], 4⟩] = false ∧
    assembleOutput detokNum ["junk"] 0 1
      [rowOuter, ⟨4, [0, 7, 8, 1], [Tag.OI, Tag.OI, Tag.OI, Tag.OI], 4⟩] =
      some (verbatimBatch detokNum
        [rowOuter, ⟨4, [0, 7, 8, 1], [Tag.OI, Tag.OI, Tag.OI, Tag.OI], 4⟩] [], 0) ∧
    verbatimBatch detokNum
      [rowOuter, ⟨4, [0, 7, 8, 1], [Tag.OI, Tag.OI, Tag.OI, Tag.OI], 4⟩] [] =
      [(3, ["10"]), (4, ["7", "8"])] :=
  ⟨by decide, by decide,
   (c7_zero_requests_verbatim detokNum ["junk"] 0 1
     [rowOuter, ⟨4, [0, 7, 8, 1], [Tag.OI, Tag.OI, Tag.OI, Tag.OI], 4⟩]
     (by decide) (by decide)).1,
   (c7_zero_requests_verbatim detokNum ["junk"] 0 1
     [rowOuter, ⟨4, [0, 7, 8, 1], [Tag.OI, Tag.OI, Tag.OI, Tag.OI], 4⟩]
     (by decide) (by decide)).2,
   by decide⟩

/-- C8 counterexample: on the spec's boundary example the extractor produces
the request `(1, 4)`, not the claimed `(left_anchor = 0, right_anchor = 3)`;
the claimed anchors would even carry sub-tokens `["the", "5"]` (ids
`[10, 5]`), not `["5", "5"]`. -/
theorem c8_anchor_mismatch :
    inferenceRowRequests [Tag.OI, Tag.OI, Tag.BI, Tag.BM, Tag.OI, Tag.OI] 6 = [(1, 4)] ∧
    subTokens [0, 10, 5, 5, 20, 1] (0, 3) = [10, 5] := by
  exact ⟨by decide, by decide⟩

/-- C8 (amended): on tags `[Start, OuterStart, RewriteStart, RewriteContinue,
OuterStart, End]` with tokens `[BOS, "the", "5", "5", "dogs", EOS]`, the
extractor produces exactly one request with `left_column_index = 1` and
`right_column_index = 4`, whose sub-tokens are `["5", "5"]` (ids `[5, 5]`),
and given the rewriter response `["five"]` the assembler yields the fragment
list `["the", "five", "dogs"]`. -/
theorem c8_boundary_example :
    inferenceRowRequests [Tag.OI, Tag.OI, Tag.BI, Tag.BM, Tag.OI, Tag.OI] 6 = [(1, 4)] ∧
    subTokens [0, 10, 5, 5, 20, 1] (1, 4) = [5, 5] ∧
    assembleOutput detokWords ["five"] 0 1
      [⟨0, [0, 10, 5, 5, 20, 1], [Tag.OI, Tag.OI, Tag.BI, Tag.BM, Tag.OI, Tag.OI], 6⟩] =
      some ([(0, ["the", "five", "dogs"])], 1) := by
  exact ⟨by decide, by decide, by decide⟩

/-- C9 counterexample: `assemble_output` ignores the valid length entirely —
for a row with valid length 1 whose padding after the start marker carries
Outer tags, it assembles the padding tokens into a non-empty fragment list
`["7"]` for the example's id, refuting "produces an empty fragment list". -/
theorem c9_padding_not_empty :
    assembleOutput detokNum [] 0 1 [⟨3, [0, 7, 7], [Tag.OI, Tag.OI, Tag.OM], 1⟩] =
      some ([(3, ["7"])], 0) := by
  decide

/-- C9 (amended): for a row whose start marker at index 0 is immediately
followed by the end marker (or whose tag row has a single entry) — the
well-formed encoding of zero valid tokens — assembly raises no error,
appends no fragment, leaves the cursor untouched, and creates no entry at
all for the id (the `defaultdict` only creates entries on append), rather
than mapping the id to an empty list. -/
theorem c9_degenerate_no_entry (detok : List Int → String) (rewritten : List String)
    (bos eos : Int) (i : Int) (toks : List Int) (tags : List Tag) (lenC : Nat)
    (h0 : toks.get? 0 = some bos)
    (h1 : tags ≠ [])
    (h2 : 2 ≤ tags.length → toks.get? 1 = some eos)
    (hne : eos ≠ bos) :
    assembleOutput detok rewritten bos eos [⟨i, toks, tags, lenC⟩] = some ([], 0) := by
  show assembleOutputFrom detok rewritten bos eos [⟨i, toks, tags, lenC⟩] [] 0 = some ([], 0)
  have hmem : (⟨i, toks, tags, lenC⟩ : Row).exid ∉ alistKeys [] := by
    simp [alistKeys]
  rw [assembleOutputFrom_cons_proc detok rewritten bos eos ⟨i, toks, tags, lenC⟩ [] [] 0 hmem]
  dsimp only
  rw [assembleRow_degenerate detok rewritten bos eos toks tags 0 h0 h1 h2 hne]
  rfl

/-- C9 witness: the amended theorem at a concrete zero-valid-token row. -/
theorem c9_degenerate_no_entry_witness :
    assembleOutput detokNum ["x"] 0 1 [⟨3, [0, 1, 7], [Tag.OI, Tag.OI, Tag.OM], 1⟩] =
      some ([], 0) :=
  c9_degenerate_no_entry detokNum ["x"] 0 1 3 [0, 1, 7] [Tag.OI, Tag.OI, Tag.OM] 1
    (by decide) (by decide) (by decide) (by decide)

/-- C10 counterexample: deduplication keys on rows that appended at least
one fragment, not on ids seen.  With a first row of id 7 producing no
fragment (end marker right after the start marker) and a duplicate second
row carrying a Rewrite span, assembly appends fragments and advances the
cursor for the second row, and the number of consumed strings (1) is not
strictly smaller than the number of produced requests (1). -/
theorem c10_consumed_not_less :
    assembleOutput detokNum ["x"] 0 1
      [⟨7, [0, 1], [Tag.OI, Tag.OI], 2⟩, ⟨7, [0, 6, 1], [Tag.OI, Tag.BI, Tag.OI], 3⟩] =
      some ([(7, ["x"])], 1) ∧
    inferenceRequestCount
      [⟨7, [0, 1], [Tag.OI, Tag.OI], 2⟩, ⟨7, [0, 6, 1], [Tag.OI, Tag.BI, Tag.OI], 3⟩] = 1 := by
  exact ⟨by decide, by decide⟩

/-- C10 (amended): in a well-formed batch, extraction emits requests for
every row including duplicates, while assembly skips a later row whose id
already has fragments; provided the first duplicate row produces at least
one span (hence at least one fragment) and the later duplicate row contains
at least one Rewrite span, the number of rewritten strings consumed by
assembly is strictly smaller than the number of requests produced by
extraction. -/
theorem c10_dup_row_undercount (detok : List Int → String) (rewritten : List String)
    (bos eos : Int) (pre mid post : List Row) (r1 r2 : Row)
    (p : List (Int × List String)) (c : Nat)
    (hwf : ∀ r ∈ pre ++ (r1 :: (mid ++ (r2 :: post))), RowWF bos eos r)
    (hid : r1.exid = r2.exid)
    (hch : chunk r1.tags (r1.lenC - 1) ≠ [])
    (hb2 : 1 ≤ rowCountB r2)
    (h : assembleOutput detok rewritten bos eos (pre ++ (r1 :: (mid ++ (r2 :: post)))) = some (p, c)) :
    c < inferenceRequestCount (pre ++ (r1 :: (mid ++ (r2 :: post)))) := by
  have h0 : assembleOutputFrom detok rewritten bos eos
      (pre ++ (r1 :: (mid ++ (r2 :: post)))) [] 0 = some (p, c) := h
  rw [assembleOutputFrom_append] at h0
  cases hpre : assembleOutputFrom detok rewritten bos eos pre [] 0 with
  | none => rw [hpre] at h0; exact absurd h0 (by simp)
  | some q0 =>
    obtain ⟨p0, c0⟩ := q0
    rw [hpre] at h0
    dsimp only at h0
    have hwf1 : RowWF bos eos r1 := hwf r1 (by simp)
    obtain ⟨p1, c1, h1, hkey1, hc1⟩ :=
      assembleOutputFrom_first_key detok rewritten bos eos r1 (mid ++ r2 :: post)
        p0 c0 p c hwf1 hch h0
    rw [assembleOutputFrom_append] at h1
    cases hmid : assembleOutputFrom detok rewritten bos eos mid p1 c1 with
    | none => rw [hmid] at h1; exact absurd h1 (by simp)
    | some q2 =>
      obtain ⟨p2, c2⟩ := q2
      rw [hmid] at h1
      dsimp only at h1
      have hkey2 : r2.exid ∈ alistKeys p2 := by
        rw [← hid]
        exact assembleOutputFrom_keys detok rewritten bos eos mid p1 c1 p2 c2 hmid r1.exid hkey1
      rw [assembleOutputFrom_cons_skip detok rewritten bos eos r2 post p2 c2 hkey2] at h1
      have hcpre : c0 ≤ 0 + batchCountB pre :=
        assembleOutputFrom_count detok rewritten bos eos pre [] 0 p0 c0
          (fun r hr => hwf r (by simp [hr])) hpre
      have hcmid : c2 ≤ c1 + batchCountB mid :=
        assembleOutputFrom_count detok rewritten bos eos mid p1 c1 p2 c2
          (fun r hr => hwf r (by simp [hr])) hmid
      have hcpost : c ≤ c2 + batchCountB post :=
        assembleOutputFrom_count detok rewritten bos eos post p2 c2 p c
          (fun r hr => hwf r (by simp [hr])) h1
      rw [inferenceRequestCount_eq_batchCountB, batchCountB_append, batchCountB_cons,
        batchCountB_append, batchCountB_cons]
      omega

/-- C10 witness: the amended theorem at a concrete batch with two identical
duplicate rows. -/
theorem c10_dup_row_undercount_witness :
    assembleOutput detokNum ["x", "y"] 0 1 ([] ++ (rowDup :: ([] ++ (rowDup :: [])))) =
      some ([(7, ["x"])], 1) ∧
    1 < inferenceRequestCount ([] ++ (rowDup :: ([] ++ (rowDup :: [])))) :=
  ⟨by decide,
   c10_dup_row_undercount detokNum ["x", "y"] 0 1 [] [] [] rowDup rowDup
     [(7, ["x"])] 1 (by decide) (by decide) (by decide) (by decide) (by decide)⟩

end TextNorm
